import Mathlib

/-!
uVisor: box function registry (`vmpu.c`) and SVC trap router (`svc.c`)

A shallow embedding of the two source files

* `k64f/uvisor/src/vmpu.c`: the global function table `g_fn`, the hash index
  `g_fn_hash`, the counters `g_fn_count` and `g_fn_box_count`, the functions
  `vmpu_hash_addr`, `vmpu_box_add_fn`, `vmpu_box_add`, `vmpu_fn_box`, and the
  control flow of the fault handlers and of `vmpu_fault`;
* `core/system/src/svc.c`: the table `g_svc_vtor_tbl`, the two assembly jump
  tables and the dispatch logic of `SVCall_IRQn_Handler`.

C arrays are lists read with a default and written with `List.set`; machine
integers are natural numbers reduced modulo `2 ^ w` where a conversion happens
in the source; `int` results are integers.
-/

namespace Uvisor

/-! ## Data model of `vmpu.c` -/

/-- The constant `MPU_MAX_PRIVATE_FUNCTIONS` (vmpu.c line 5). -/
def MPU_MAX_PRIVATE_FUNCTIONS : Nat := 16

/-- The record type `TFnTable` (vmpu.c lines 19-25). -/
structure TFnTable where
  addr : Nat
  count : Nat
  hash : Nat
  box_id : Nat
  flags : Nat
deriving DecidableEq

/-- The zero-initialised record of a static array. -/
def TFnTable.zero : TFnTable := ⟨0, 0, 0, 0, 0⟩

/-- The static variables of vmpu.c (lines 27-29): `g_fn`, `g_fn_hash`,
`g_fn_count` and `g_fn_box_count`. -/
structure VmpuState where
  g_fn : List TFnTable
  g_fn_hash : List Nat
  g_fn_count : Nat
  g_fn_box_count : Nat
deriving DecidableEq

/-- The state at program start: static storage is zeroed. -/
def VmpuState.init : VmpuState :=
  { g_fn := List.replicate MPU_MAX_PRIVATE_FUNCTIONS TFnTable.zero
    g_fn_hash := List.replicate 0x100 0
    g_fn_count := 0
    g_fn_box_count := 0 }

/-- The array read `g[i]`.  An index outside the list reads the zero record;
the states of `VmpuState.wf` keep every index the code uses inside the array. -/
def fnAt (g : List TFnTable) (i : Nat) : TFnTable := g.getD i TFnTable.zero

/-- The function `vmpu_hash_addr` (vmpu.c lines 95-102): the exclusive-or of the
shifted copies of `data`, converted to `uint8_t` by the return. -/
def vmpu_hash_addr (data : Nat) : Nat :=
  ((data >>> 24) ^^^ (data >>> 16) ^^^ (data >>> 8) ^^^ data) % 0x100

/-- The loop "add new functions" of `vmpu_box_add_fn` (vmpu.c lines 115-132).
The first argument is the number of iterations left (`count - i`), the list is
the rest of `fn`.  The flag of the result is `true` when the loop left the
function through `return -1`.  The pointer `p` always equals
`&g_fn[g_fn_count]`, so the record written is the one at index `g_fn_count`;
its `count` and `flags` fields are not written.  `*fn++` reads the head of the
list (0 past its end) and the cast to `uint32_t` reduces it modulo `2 ^ 32`. -/
def add_new_functions (box_id : Nat) : Nat → List Nat → VmpuState → VmpuState × Bool
  | 0, _, s => (s, false)
  | k + 1, fn, s =>
    if s.g_fn_count ≥ MPU_MAX_PRIVATE_FUNCTIONS then (s, true)
    else
      let addr := fn.headD 0 % 2 ^ 32
      let p := fnAt s.g_fn s.g_fn_count
      let g := s.g_fn.set s.g_fn_count
        { p with addr := addr, hash := vmpu_hash_addr addr, box_id := box_id }
      add_new_functions box_id k fn.tail
        { s with g_fn := g, g_fn_count := s.g_fn_count + 1 }

/-- One execution of the inner `for(i=1; i<g_fn_count; i++)` loop of the sort
(vmpu.c lines 138-149).  The first argument is the number of iterations left,
the second is `i`, the last is the variable `sorting`. -/
def sort_pass : Nat → Nat → List TFnTable → Bool → List TFnTable × Bool
  | 0, _, g, sorting => (g, sorting)
  | k + 1, i, g, sorting =>
    if (fnAt g i).hash < (fnAt g (i - 1)).hash then
      let tmp := fnAt g i
      let g1 := g.set i (fnAt g (i - 1))
      let g2 := g1.set (i - 1) tmp
      sort_pass k (i + 1) g2 true
    else
      sort_pass k (i + 1) g sorting

/-- The `do ... while (sorting)` loop (vmpu.c lines 135-150) with a bound on the
number of passes: `none` when the bound is used up before a pass without swap. -/
def silly_sort_fuel (n : Nat) : Nat → List TFnTable → Option (List TFnTable)
  | 0, _ => none
  | fuel + 1, g =>
    let r := sort_pass (n - 1) 1 g false
    if r.2 then silly_sort_fuel n fuel r.1 else some r.1

/-- Number of pairs of positions of a list that are out of order by hash. -/
def inversions : List TFnTable → Nat
  | [] => 0
  | x :: rest => rest.countP (fun y => decide (y.hash < x.hash)) + inversions rest

/-- The sort of `vmpu_box_add_fn` as a total function.  The loop is allowed
`inversions g + 1` passes; `silly_sort_fuel_enough` shows that this always
reaches the pass without swap, and that a larger bound gives the same array. -/
def silly_sort (n : Nat) (g : List TFnTable) : List TFnTable :=
  match silly_sort_fuel n (inversions g + 1) g with
  | some r => r
  | none => g

/-- The loop "update g_fn_table_hash and function counts" (vmpu.c lines 160-185).
Arguments: iterations left, `i`, the index of the record `p` points to, `j`,
`hprev`.  `p` starts at `g_fn` and is advanced once per iteration, while `i`
starts at 1. -/
def update_hash_table : Nat → Nat → Nat → Nat → Nat → VmpuState → VmpuState
  | 0, _, _, _, _, s => s
  | k + 1, i, p, j, hprev, s =>
    let h := (fnAt s.g_fn p).hash
    if h = hprev then
      let g := s.g_fn.set p { fnAt s.g_fn p with count := 0 }
      update_hash_table k (i + 1) (p + 1) j hprev { s with g_fn := g }
    else
      let gh := s.g_fn_hash.set hprev (j % 0x100)
      let g := s.g_fn.set j { fnAt s.g_fn j with count := (i - j) % 0x100 }
      update_hash_table k (i + 1) (p + 1) i h { s with g_fn := g, g_fn_hash := gh }

/-- The function `vmpu_box_add_fn` (vmpu.c lines 104-191): the new state and the
returned `int`. -/
def vmpu_box_add_fn (s : VmpuState) (box_id : Nat) (fn : List Nat) (count : Nat) :
    VmpuState × Int :=
  let r := add_new_functions box_id count fn s
  if r.2 then (r.1, -1)
  else
    let s1 := { r.1 with g_fn := silly_sort r.1.g_fn_count r.1.g_fn }
    let s2 := update_hash_table (s1.g_fn_count - 1) 1 0 0 (fnAt s1.g_fn 0).hash s1
    (s2, (s2.g_fn_count : Int))

/-- The fields of `TBoxDesc` that `vmpu_box_add` reads. -/
structure TBoxDesc where
  fn_list : List Nat
  fn_count : Nat
deriving DecidableEq

/-- The function `vmpu_box_add` (vmpu.c lines 193-208).  The statement after
`if(g_fn_box_count>=0x100UL)` is the second `if`, which is therefore its body.
The `uint8_t` parameter of `vmpu_box_add_fn` receives `g_fn_box_count` reduced
modulo 256.  The counter is an unbounded natural number: the signed overflow
after `2 ^ 31` calls is outside the model. -/
def vmpu_box_add (s : VmpuState) (box : TBoxDesc) : VmpuState × Int :=
  let s1 := { s with g_fn_box_count := s.g_fn_box_count + 1 }
  if s1.g_fn_box_count ≥ 0x100 then
    if box.fn_count ≠ 0 then
      let r := vmpu_box_add_fn s1 (s1.g_fn_box_count % 0x100) box.fn_list box.fn_count
      if r.2 < 0 then (r.1, r.2) else (r.1, 0)
    else (s1, 0)
  else (s1, 0)

/-- The iterations of the `do ... while(count>0)` loop of `vmpu_fn_box` after the
first one; the argument is the value of `count` after the decrement.  `p` is
not advanced by the loop. -/
def vmpu_fn_box_scan (p : TFnTable) (addr : Nat) : Nat → Int
  | 0 => 0
  | c + 1 => if p.addr = addr then (p.box_id : Int) else vmpu_fn_box_scan p addr c

/-- The function `vmpu_fn_box` (vmpu.c lines 210-231).  `count--` on a
`uint8_t` is `(count + 255) % 256`. -/
def vmpu_fn_box (s : VmpuState) (addr : Nat) : Int :=
  let hash := vmpu_hash_addr addr
  let fn_index := s.g_fn_hash.getD hash 0
  if fn_index = 0 then -1
  else
    let p := fnAt s.g_fn fn_index
    let count := p.count
    if p.addr = addr then (p.box_id : Int)
    else vmpu_fn_box_scan p addr ((count + 0xFF) % 0x100)

/-! ## Predicates on registry states -/

/-- The bounds that the declarations of vmpu.c give the state: `g_fn` has
`MPU_MAX_PRIVATE_FUNCTIONS` records, `g_fn_hash` has 256 entries, and the
number of stored records does not exceed the capacity. -/
def VmpuState.wf (s : VmpuState) : Prop :=
  s.g_fn.length = MPU_MAX_PRIVATE_FUNCTIONS ∧ s.g_fn_hash.length = 0x100 ∧
    s.g_fn_count ≤ MPU_MAX_PRIVATE_FUNCTIONS

instance (s : VmpuState) : Decidable s.wf := by
  unfold VmpuState.wf; infer_instance

/-- The second state has the same counters and array sizes as the first, and
its records have the same `addr`, `hash` and `box_id` fields. -/
def same_records (s t : VmpuState) : Prop :=
  t.g_fn_count = s.g_fn_count ∧ t.g_fn_box_count = s.g_fn_box_count ∧
    t.g_fn.length = s.g_fn.length ∧ t.g_fn_hash.length = s.g_fn_hash.length ∧
    ∀ q, (fnAt t.g_fn q).hash = (fnAt s.g_fn q).hash ∧
      (fnAt t.g_fn q).addr = (fnAt s.g_fn q).addr ∧
      (fnAt t.g_fn q).box_id = (fnAt s.g_fn q).box_id

/-- The stored records `g_fn[0 .. g_fn_count)` are sorted by hash, ascending. -/
def sorted_by_hash (s : VmpuState) : Prop :=
  ∀ i j, i ≤ j → j < s.g_fn_count → (fnAt s.g_fn i).hash ≤ (fnAt s.g_fn j).hash

/-- A sequence of calls `vmpu_box_add_fn(box_id, fn, count)`, each given as the
pair of `box_id` and the batch `fn`, with `count` the length of the batch; the
returned values are dropped. -/
def run_box_add_fn (s : VmpuState) : List (Nat × List Nat) → VmpuState
  | [] => s
  | c :: cs => run_box_add_fn (vmpu_box_add_fn s c.1 c.2 c.2.length).1 cs

/-- A sequence of calls of `vmpu_box_add`; the returned values are dropped. -/
def run_box_add (s : VmpuState) : List TBoxDesc → VmpuState
  | [] => s
  | b :: bs => run_box_add (vmpu_box_add s b).1 bs

/-! ## Data model of `svc.c` -/

/-- The handler symbols that the tables of svc.c name. -/
inductive SvcSymbol
  | __svc_not_implemented
  | unvic_isr_set
  | unvic_isr_get
  | unvic_irq_enable
  | unvic_irq_disable
  | unvic_irq_pending_clr
  | unvic_irq_pending_set
  | unvic_irq_pending_get
  | unvic_irq_priority_set
  | unvic_irq_priority_get
  | halt_user_error
  | unvic_irq_level_get
  | vmpu_box_namespace_from_id
  | debug_reboot
  | debug_register_driver
  | unvic_irq_disable_all
  | unvic_irq_enable_all
  | page_allocator_malloc
  | page_allocator_free
  | unvic_gateway_out
  | unvic_gateway_in
  | register_gateway_perform_operation
  | box_init_first
  | box_init_next
deriving DecidableEq

/-- The table `g_svc_vtor_tbl` (svc.c lines 40-67). -/
def g_svc_vtor_tbl : List SvcSymbol :=
  [ .__svc_not_implemented,      --  0
    .unvic_isr_set,              --  1
    .unvic_isr_get,              --  2
    .unvic_irq_enable,           --  3
    .unvic_irq_disable,          --  4
    .unvic_irq_pending_clr,      --  5
    .unvic_irq_pending_set,      --  6
    .unvic_irq_pending_get,      --  7
    .unvic_irq_priority_set,     --  8
    .unvic_irq_priority_get,     --  9
    .__svc_not_implemented,      -- 10
    .__svc_not_implemented,      -- 11
    .__svc_not_implemented,      -- 12
    .halt_user_error,            -- 13
    .unvic_irq_level_get,        -- 14
    .__svc_not_implemented,      -- 15
    .__svc_not_implemented,      -- 16
    .vmpu_box_namespace_from_id, -- 17
    .debug_reboot,               -- 18
    .debug_register_driver,      -- 19
    .unvic_irq_disable_all,      -- 20
    .unvic_irq_enable_all,       -- 21
    .page_allocator_malloc,      -- 22
    .page_allocator_free ]       -- 23

/-- The words between `jump_table_unpriv` and `jump_table_unpriv_end`
(svc.c lines 134-151). -/
def jump_table_unpriv : List SvcSymbol :=
  [ .unvic_gateway_out,
    .__svc_not_implemented,
    .__svc_not_implemented,
    .register_gateway_perform_operation,
    .box_init_first,
    .box_init_next,
    .__svc_not_implemented,
    .__svc_not_implemented,
    .__svc_not_implemented,
    .__svc_not_implemented,
    .__svc_not_implemented,
    .__svc_not_implemented,
    .__svc_not_implemented,
    .__svc_not_implemented,
    .__svc_not_implemented,
    .__svc_not_implemented ]

/-- The words between `jump_table_priv` and `jump_table_priv_end`
(svc.c lines 207-224). -/
def jump_table_priv : List SvcSymbol :=
  [ .unvic_gateway_in,
    .__svc_not_implemented,
    .__svc_not_implemented,
    .__svc_not_implemented,
    .__svc_not_implemented,
    .__svc_not_implemented,
    .__svc_not_implemented,
    .__svc_not_implemented,
    .__svc_not_implemented,
    .__svc_not_implemented,
    .__svc_not_implemented,
    .__svc_not_implemented,
    .__svc_not_implemented,
    .__svc_not_implemented,
    .__svc_not_implemented,
    .__svc_not_implemented ]

/-- The constants of the header `svc_exports.h` that the assembly takes as
operands (svc.c lines 247-248).  The header is not part of the sources, so the
two masks are parameters of the handler. -/
structure SvcExports where
  UVISOR_SVC_MODE_MASK : Nat
  UVISOR_SVC_FAST_INDEX_MASK : Nat
deriving DecidableEq

/-- Modelled from the spec: the constants of the absent header `svc_exports.h`.
One bit of the operand selects fast or slow dispatch (here the top bit of the
8-bit immediate) and the fast index is masked to the default table width 16. -/
def svc_exports : SvcExports :=
  { UVISOR_SVC_MODE_MASK := 0x80
    UVISOR_SVC_FAST_INDEX_MASK := 0x0F }

/-- The operand `[svc_vtor_tbl_count]` of the assembly (svc.c line 249):
`UVISOR_ARRAY_COUNT(g_svc_vtor_tbl) - 1`. -/
def svc_vtor_tbl_count : Nat := g_svc_vtor_tbl.length - 1

/-- What the handler sees of the machine when the trap is taken: the
`EXC_RETURN` value in `lr`, the two stack pointers, the stacked registers
`r0`-`r3` and `pc` of the frame on the active stack, and the byte at `pc - 2`
(the immediate of the SVC instruction). -/
structure TrapContext where
  lr : Nat
  psp : Nat
  msp : Nat
  r0 : Nat
  r1 : Nat
  r2 : Nat
  r3 : Nat
  pc : Nat
  imm : Nat
deriving DecidableEq

/-- Where the assembly of `SVCall_IRQn_Handler` sends control.

* `hook`: `bx r0` to `g_priv_sys_hooks.priv_svc_0`, with `r1`, `r2` as given;
* `jump`: `ldr pc, [r12, r3, lsl #2]` into the fast table of the privilege
  level, `target` being the word at that slot (`none` outside the table);
* `call`: the slow path, the handler loaded from `g_svc_vtor_tbl` is entered
  with four arguments and returns to the thunk;
* `discard`: `bxhi lr`, the exception returns at once. -/
inductive SvcTransfer
  | hook (r1 r2 : Nat)
  | jump (priv : Bool) (index : Nat) (target : Option SvcSymbol) (r0 r1 r2 : Nat)
  | call (priv : Bool) (index : Nat) (target : Option SvcSymbol) (a0 a1 a2 a3 : Nat)
  | discard
deriving DecidableEq

/-- The label `custom_table_unpriv` (svc.c lines 154-170): `cmp r2, count`,
then `ldrls`/`bxhi`. -/
def custom_table_unpriv (c : TrapContext) (r2 : Nat) : SvcTransfer :=
  if r2 ≤ svc_vtor_tbl_count then
    SvcTransfer.call false r2 g_svc_vtor_tbl[r2]? c.r0 c.r1 c.r2 c.r3
  else SvcTransfer.discard

/-- The label `custom_table_priv` (svc.c lines 227-240). -/
def custom_table_priv (c : TrapContext) (r2 : Nat) : SvcTransfer :=
  if r2 ≤ svc_vtor_tbl_count then
    SvcTransfer.call true r2 g_svc_vtor_tbl[r2]? c.r0 c.r1 c.r2 c.r3
  else SvcTransfer.discard

/-- The label `called_from_unpriv` (svc.c lines 105-151). -/
def called_from_unpriv (x : SvcExports) (c : TrapContext) : SvcTransfer :=
  let r0 := c.psp
  let r1 := (c.pc + (2 ^ 32 - 2)) % 2 ^ 32
  let r2 := c.imm % 0x100
  if r2 = 0 then SvcTransfer.hook r1 r2
  else if r2 &&& (x.UVISOR_SVC_MODE_MASK &&& 0xFF) = 0 then custom_table_unpriv c r2
  else
    let r3 := r2 &&& (x.UVISOR_SVC_FAST_INDEX_MASK &&& 0xFF)
    SvcTransfer.jump false r3 jump_table_unpriv[r3]? r0 r1 r2

/-- The label `called_from_priv` (svc.c lines 178-224). -/
def called_from_priv (x : SvcExports) (c : TrapContext) : SvcTransfer :=
  let r0 := c.msp
  let r1 := (c.pc + (2 ^ 32 - 2)) % 2 ^ 32
  let r2 := c.imm % 0x100
  if r2 = 0 then SvcTransfer.hook r1 r2
  else if r2 &&& (x.UVISOR_SVC_MODE_MASK &&& 0xFF) = 0 then custom_table_priv c r2
  else
    let r3 := r2 &&& (x.UVISOR_SVC_FAST_INDEX_MASK &&& 0xFF)
    SvcTransfer.jump true r3 jump_table_priv[r3]? r0 r1 r2

/-- The control transfer of `SVCall_IRQn_Handler` (svc.c lines 96-252):
`tst lr, #4` selects the privileged path when bit 2 of `lr` is clear. -/
def SVCall_IRQn_Handler (x : SvcExports) (c : TrapContext) : SvcTransfer :=
  if c.lr &&& 4 = 0 then called_from_priv x c else called_from_unpriv x c

/-- The trapped context when the assembly of `SVCall_IRQn_Handler` is left.
Only the thunks `svc_thunk_unpriv` and `svc_thunk_priv` write to it: they store
the value returned by the slow-table handler on the stacked `r0`.  `result`
gives the value the external handler returns for its four arguments. -/
def SVCall_IRQn_Handler_context (x : SvcExports)
    (result : Option SvcSymbol → Nat → Nat → Nat → Nat → Nat) (c : TrapContext) :
    TrapContext :=
  match SVCall_IRQn_Handler x c with
  | SvcTransfer.call _ _ target a0 a1 a2 a3 => { c with r0 := result target a0 a1 a2 a3 }
  | _ => c

/-! ## Invariants of the registry -/

/-- The `hash` field of every record of `g_fn` is the hash of its `addr` field. -/
def hash_fields_ok (s : VmpuState) : Prop :=
  ∀ q, (fnAt s.g_fn q).hash = vmpu_hash_addr (fnAt s.g_fn q).addr

/-- Every entry of `g_fn_hash` is 0 or the index of a stored record. -/
def hash_index_in_range (s : VmpuState) : Prop :=
  ∀ h, s.g_fn_hash.getD h 0 = 0 ∨ s.g_fn_hash.getD h 0 < s.g_fn_count

/-- A nonzero entry of `g_fn_hash` belongs to a hash value greater than the
hash of the record at index 0. -/
def hash_index_above_first (s : VmpuState) : Prop :=
  ∀ h, s.g_fn_hash.getD h 0 ≠ 0 → (fnAt s.g_fn 0).hash < h

/-- The invariant of the registry states that `vmpu_box_add_fn` produces. -/
def registry_inv (s : VmpuState) : Prop :=
  s.wf ∧ hash_fields_ok s ∧ hash_index_in_range s ∧ hash_index_above_first s

/-- The addresses of the stored records all satisfy `P`. -/
def stored_addrs (P : Nat → Prop) (s : VmpuState) : Prop :=
  ∀ q, q < s.g_fn_count → P (fnAt s.g_fn q).addr

/-- The address `x` is one of the addresses, as converted to `uint32_t`, of
the batches of the calls. -/
def registered (calls : List (Nat × List Nat)) (x : Nat) : Prop :=
  ∃ c ∈ calls, ∃ a ∈ c.2, x = a % 2 ^ 32

/-! ## The indices of `g_fn` that `vmpu_box_add_fn` uses -/

/-- The indices written by the append loop (vmpu.c lines 126-128): one write
to `g_fn[g_fn_count]` in every iteration that passes the overflow test.  The
state of the next iteration is the one a single iteration leaves. -/
def add_new_functions_writes (box_id : Nat) : Nat → List Nat → VmpuState → List Nat
  | 0, _, _ => []
  | k + 1, fn, s =>
    if s.g_fn_count ≥ MPU_MAX_PRIVATE_FUNCTIONS then []
    else
      s.g_fn_count ::
        add_new_functions_writes box_id k fn.tail (add_new_functions box_id 1 fn s).1

/-- The indices read, and on a swap written, by one pass of the sort
(vmpu.c lines 140-145): `g_fn[i]` and `g_fn[i-1]` in every iteration. -/
def sort_pass_accesses : Nat → Nat → List Nat
  | 0, _ => []
  | k + 1, i => i :: (i - 1) :: sort_pass_accesses k (i + 1)

/-- The indices used by the index loop (vmpu.c lines 162-170): the read of
`p->hash` and the write of `p->count` at the index of `p`, the write of
`g_fn[j].count` at `j`.  The state of the next iteration is the one a single
iteration leaves. -/
def update_hash_table_accesses : Nat → Nat → Nat → Nat → Nat → VmpuState → List Nat
  | 0, _, _, _, _, _ => []
  | k + 1, i, p, j, hprev, s =>
    let h := (fnAt s.g_fn p).hash
    if h = hprev then
      p :: update_hash_table_accesses k (i + 1) (p + 1) j hprev
        (update_hash_table 1 i p j hprev s)
    else
      p :: j :: update_hash_table_accesses k (i + 1) (p + 1) i h
        (update_hash_table 1 i p j hprev s)

/-- The indices of `g_fn` used by one call of `vmpu_box_add_fn`: the writes of
the append loop and, unless it overflowed, the accesses of a pass of the sort
(every pass uses the same indices), the read of `g_fn[0].hash` and the
accesses of the index loop. -/
def vmpu_box_add_fn_accesses (s : VmpuState) (box_id : Nat) (fn : List Nat) (count : Nat) :
    List Nat :=
  let r := add_new_functions box_id count fn s
  add_new_functions_writes box_id count fn s ++
    if r.2 then []
    else
      let s1 := { r.1 with g_fn := silly_sort r.1.g_fn_count r.1.g_fn }
      sort_pass_accesses (r.1.g_fn_count - 1) 1 ++
        0 :: update_hash_table_accesses (s1.g_fn_count - 1) 1 0 0 (fnAt s1.g_fn 0).hash s1

/-! ## The dispatch decision of the trap router -/

/-- The four outcomes of the dispatch: the hook, a slot of a fast table, an
entry of the slow table, or nothing. -/
inductive SvcDecision
  | hook
  | fast (index : Nat)
  | slow (index : Nat)
  | discarded
deriving DecidableEq

/-- The dispatch decision that a control transfer of the handler stands for. -/
def SvcTransfer.decision : SvcTransfer → SvcDecision
  | SvcTransfer.hook _ _ => SvcDecision.hook
  | SvcTransfer.jump _ i _ _ _ _ => SvcDecision.fast i
  | SvcTransfer.call _ i _ _ _ _ _ => SvcDecision.slow i
  | SvcTransfer.discard => SvcDecision.discarded

/-- The dispatch rule in the words of the specification (section 4.1), for
comparison with the assembly: operand 0 goes to the hook; for a nonzero
operand the selector bit chooses fast dispatch, with the index masked to the
table width, or slow dispatch, where an index below the length of the table
reaches that entry and any other index is discarded. -/
def spec_dispatch_decision (x : SvcExports) (operand : Nat) : SvcDecision :=
  if operand = 0 then SvcDecision.hook
  else if operand &&& (x.UVISOR_SVC_MODE_MASK &&& 0xFF) ≠ 0 then
    SvcDecision.fast (operand &&& (x.UVISOR_SVC_FAST_INDEX_MASK &&& 0xFF))
  else if operand < g_svc_vtor_tbl.length then SvcDecision.slow operand
  else SvcDecision.discarded

/-! ## The fault handlers of `vmpu.c` -/

/-- The four fault handlers (vmpu.c lines 51-73). -/
inductive FaultHandler
  | vmpu_fault_bus
  | vmpu_fault_usage
  | vmpu_fault_hard
  | vmpu_fault_debug
deriving DecidableEq

/-- The exceptions for which `vmpu_init` installs a handler. -/
inductive FaultIrq
  | BusFault_IRQn
  | UsageFault_IRQn
  | HardFault_IRQn
  | DebugMonitor_IRQn
deriving DecidableEq

/-- The `ISR_SET` calls of `vmpu_init` (vmpu.c lines 236-239). -/
def vmpu_init : FaultIrq → FaultHandler
  | FaultIrq.BusFault_IRQn => FaultHandler.vmpu_fault_bus
  | FaultIrq.UsageFault_IRQn => FaultHandler.vmpu_fault_usage
  | FaultIrq.HardFault_IRQn => FaultHandler.vmpu_fault_hard
  | FaultIrq.DebugMonitor_IRQn => FaultHandler.vmpu_fault_debug

/-- The points of control of a fault handler and of `vmpu_fault` called from
it.

* `handler_dprintf`: the `dprintf` that opens the handler;
* `handler_call`: the statement `vmpu_fault(...)`;
* `handler_end`: the end of the handler, after the call;
* `fault_cesr`: the first `dprintf` of `vmpu_fault` and `sperr = (MPU->CESR >> 27)`;
* `fault_for t`: the test `t<5` of the `for` loop;
* `fault_for_body t`: the body of the loop, `sperr <<= 1` and `t++`;
* `fault_cfsr`: the `dprintf` after the loop;
* `fault_while`: the statement `while(1);`;
* `fault_end`: the end of `vmpu_fault`. -/
inductive FaultPc
  | handler_dprintf (h : FaultHandler)
  | handler_call (h : FaultHandler)
  | handler_end (h : FaultHandler)
  | fault_cesr (h : FaultHandler)
  | fault_for (h : FaultHandler) (t : Nat)
  | fault_for_body (h : FaultHandler) (t : Nat)
  | fault_cfsr (h : FaultHandler)
  | fault_while (h : FaultHandler)
  | fault_end (h : FaultHandler)
deriving DecidableEq

/-- The processor either runs the program or is at a point of a fault handler. -/
inductive Machine
  | running
  | in_fault (pc : FaultPc)
deriving DecidableEq

/-- One step of the code of the fault handlers (vmpu.c lines 31-73).  The
values printed do not influence the control flow and are left out.  The end of
`vmpu_fault` returns to the handler, the end of the handler returns from the
exception. -/
def fault_step : FaultPc → Machine
  | FaultPc.handler_dprintf h => Machine.in_fault (FaultPc.handler_call h)
  | FaultPc.handler_call h => Machine.in_fault (FaultPc.fault_cesr h)
  | FaultPc.handler_end _ => Machine.running
  | FaultPc.fault_cesr h => Machine.in_fault (FaultPc.fault_for h 0)
  | FaultPc.fault_for h t =>
    if t < 5 then Machine.in_fault (FaultPc.fault_for_body h t)
    else Machine.in_fault (FaultPc.fault_cfsr h)
  | FaultPc.fault_for_body h t => Machine.in_fault (FaultPc.fault_for h (t + 1))
  | FaultPc.fault_cfsr h => Machine.in_fault (FaultPc.fault_while h)
  | FaultPc.fault_while h =>
    if (1 : Nat) ≠ 0 then Machine.in_fault (FaultPc.fault_while h)
    else Machine.in_fault (FaultPc.fault_end h)
  | FaultPc.fault_end h => Machine.in_fault (FaultPc.handler_end h)

/-- What can happen to the running program: a fault exception, a trap with an
operand, or any other instruction. -/
inductive MachineEvent
  | fault (irq : FaultIrq)
  | svc (imm : Nat)
  | other
deriving DecidableEq

/-- One transition of the machine.  A fault taken by the running program enters
the handler that `vmpu_init` installed; while a handler runs, the processor
executes its code and no instruction of the program. -/
def machine_step : Machine → MachineEvent → Machine
  | Machine.running, MachineEvent.fault irq =>
    Machine.in_fault (FaultPc.handler_dprintf (vmpu_init irq))
  | Machine.running, _ => Machine.running
  | Machine.in_fault pc, _ => fault_step pc

/-- The machine after a sequence of events. -/
def machine_run (m : Machine) : List MachineEvent → Machine
  | [] => m
  | e :: es => machine_run (machine_step m e) es

/-- The two states of the abstract machine. -/
inductive SysState
  | Running
  | Halted
deriving DecidableEq

/-- The abstract state of the machine: halted as soon as a fault handler runs. -/
def Machine.sys_state : Machine → SysState
  | Machine.running => SysState.Running
  | Machine.in_fault _ => SysState.Halted

/-- A trap is processed when the event is a trap and the program is running. -/
def trap_processed (m : Machine) (e : MachineEvent) : Prop :=
  m = Machine.running ∧ ∃ imm, e = MachineEvent.svc imm

/-- The points of control from which the end of `vmpu_fault` has not been
passed. -/
def FaultPc.before_end : FaultPc → Prop
  | FaultPc.handler_end _ => False
  | FaultPc.fault_end _ => False
  | _ => True

/-! ## Array reads after writes -/

theorem fnAt_set (g : List TFnTable) (p i : Nat) (v : TFnTable) :
    fnAt (g.set p v) i = if p = i ∧ p < g.length then v else fnAt g i := by
  unfold fnAt
  simp only [List.getD_eq_getElem?_getD, List.getElem?_set]
  by_cases h : p = i
  · subst h
    by_cases h2 : p < g.length
    · simp [h2]
    · have h3 : g.length ≤ p := Nat.le_of_not_lt h2
      simp [h2, List.getElem?_eq_none h3]
  · simp [h]

theorem fnAt_append_length (pre : List TFnTable) (x : TFnTable) (rest : List TFnTable) :
    fnAt (pre ++ x :: rest) pre.length = x := by
  unfold fnAt
  rw [List.getD_eq_getElem?_getD, List.getElem?_append_right (Nat.le_refl _)]
  simp

theorem fnAt_append_length_succ (pre : List TFnTable) (x y : TFnTable)
    (rest : List TFnTable) : fnAt (pre ++ x :: y :: rest) (pre.length + 1) = y := by
  have h : pre ++ x :: y :: rest = (pre ++ [x]) ++ y :: rest := by simp
  have h2 : pre.length + 1 = (pre ++ [x]).length := by simp
  rw [h, h2, fnAt_append_length]

/-- Every position `i` with `1 ≤ i < g.length` splits the array around the
adjacent pair `g[i-1]`, `g[i]`. -/
theorem split_adjacent (g : List TFnTable) (i : Nat) (hi : 1 ≤ i) (hlen : i < g.length) :
    ∃ pre x y rest, g = pre ++ x :: y :: rest ∧ pre.length + 1 = i := by
  have hd : (g.drop (i - 1)).length = g.length - (i - 1) := List.length_drop _ _
  have ht : (g.take (i - 1)).length = i - 1 := by
    rw [List.length_take]; omega
  have hg : g.take (i - 1) ++ g.drop (i - 1) = g := List.take_append_drop _ _
  cases hdr : g.drop (i - 1) with
  | nil => rw [hdr] at hd; simp at hd; omega
  | cons x t =>
    cases t with
    | nil => rw [hdr] at hd; simp at hd; omega
    | cons y rest =>
      refine ⟨g.take (i - 1), x, y, rest, ?_, ?_⟩
      · rw [← hdr, hg]
      · rw [ht]; omega

/-- The three assignments of the swap exchange the two middle records. -/
theorem swap_adjacent (pre : List TFnTable) (x y : TFnTable) (rest : List TFnTable) :
    ((pre ++ x :: y :: rest).set (pre.length + 1)
        (fnAt (pre ++ x :: y :: rest) (pre.length + 1 - 1))).set (pre.length + 1 - 1)
      (fnAt (pre ++ x :: y :: rest) (pre.length + 1)) = pre ++ y :: x :: rest := by
  rw [fnAt_append_length_succ, Nat.add_sub_cancel, fnAt_append_length]
  rw [List.set_append_right _ _ (by omega)]
  rw [List.set_append_right _ _ (by simp)]
  simp

/-! ## The sort terminates and sorts -/

theorem inversions_append_swap (pre : List TFnTable) (x y : TFnTable)
    (rest : List TFnTable) (h : y.hash < x.hash) :
    inversions (pre ++ y :: x :: rest) + 1 = inversions (pre ++ x :: y :: rest) := by
  induction pre with
  | nil =>
    have h2 : ¬ x.hash < y.hash := by omega
    simp [inversions, List.countP_cons, h, h2]
    omega
  | cons p pre ih =>
    simp only [List.cons_append, inversions, List.append_eq, List.countP_append,
      List.countP_cons]
    omega

theorem sort_pass_flag (k i : Nat) (g : List TFnTable) :
    (sort_pass k i g true).2 = true := by
  induction k generalizing i g with
  | zero => rfl
  | succ k ih =>
    rw [sort_pass]
    split
    · exact ih _ _
    · exact ih _ _

theorem sort_pass_length (k i : Nat) (g : List TFnTable) (s : Bool) :
    (sort_pass k i g s).1.length = g.length := by
  induction k generalizing i g s with
  | zero => rfl
  | succ k ih =>
    rw [sort_pass]
    split
    · rw [ih]; simp
    · exact ih _ _ _

/-- A pass that leaves `sorting` false has changed nothing and has found every
adjacent pair it compared in order. -/
theorem sort_pass_noswap (k i : Nat) (g : List TFnTable)
    (h : (sort_pass k i g false).2 = false) :
    (sort_pass k i g false).1 = g ∧
      ∀ j, i ≤ j → j < i + k → (fnAt g (j - 1)).hash ≤ (fnAt g j).hash := by
  induction k generalizing i with
  | zero => exact ⟨rfl, fun j h1 h2 => by omega⟩
  | succ k ih =>
    rw [sort_pass] at h ⊢
    by_cases hc : (fnAt g i).hash < (fnAt g (i - 1)).hash
    · simp only [hc, if_true] at h
      rw [sort_pass_flag] at h
      cases h
    · simp only [hc, if_false] at h ⊢
      obtain ⟨h1, h2⟩ := ih (i + 1) h
      refine ⟨h1, fun j hj1 hj2 => ?_⟩
      by_cases hji : j = i
      · subst hji; omega
      · exact h2 j (by omega) (by omega)

/-- A pass never adds inversions, and a pass that sets `sorting` removes one. -/
theorem sort_pass_inversions (k i : Nat) (g : List TFnTable) (s : Bool)
    (hi : 1 ≤ i) (hk : k = 0 ∨ i + k ≤ g.length) :
    inversions (sort_pass k i g s).1 ≤ inversions g ∧
      (s = false → (sort_pass k i g s).2 = true →
        inversions (sort_pass k i g s).1 < inversions g) := by
  induction k generalizing i g s with
  | zero =>
    refine ⟨Nat.le_refl _, fun hs h2 => ?_⟩
    simp [sort_pass, hs] at h2
  | succ k ih =>
    obtain ⟨pre, x, y, rest, hg, hpre⟩ := split_adjacent g i hi (by omega)
    rw [sort_pass]
    by_cases hc : (fnAt g i).hash < (fnAt g (i - 1)).hash
    · simp only [hc, if_true]
      have hsw : (g.set i (fnAt g (i - 1))).set (i - 1) (fnAt g i)
          = pre ++ y :: x :: rest := by
        rw [hg, ← hpre]; exact swap_adjacent pre x y rest
      have hyx : y.hash < x.hash := by
        rw [hg, ← hpre, fnAt_append_length_succ, Nat.add_sub_cancel,
          fnAt_append_length] at hc
        exact hc
      have hinv := inversions_append_swap pre x y rest hyx
      rw [hsw]
      have hlen : i + 1 + k ≤ (pre ++ y :: x :: rest).length := by
        rw [hg] at hk; simp at hk ⊢; omega
      have h := (ih (i + 1) (pre ++ y :: x :: rest) true (by omega) (Or.inr hlen)).1
      rw [hg]
      constructor
      · omega
      · intro _ _; omega
    · simp only [hc, if_false]
      exact ih (i + 1) g s (by omega) (by omega)

/-- With more passes allowed than the array has inversions, the loop ends in a
pass without swap: the result has the same length and a further pass over it
changes nothing. -/
theorem silly_sort_fuel_some (n fuel : Nat) (g : List TFnTable) (hn : n ≤ g.length)
    (hf : inversions g < fuel) :
    ∃ r, silly_sort_fuel n fuel g = some r ∧ r.length = g.length ∧
      sort_pass (n - 1) 1 r false = (r, false) := by
  induction fuel generalizing g with
  | zero => omega
  | succ fuel ih =>
    rw [silly_sort_fuel]
    by_cases hs : (sort_pass (n - 1) 1 g false).2 = true
    · simp only [hs, if_true]
      have hlt := (sort_pass_inversions (n - 1) 1 g false (Nat.le_refl 1) (by omega)).2 rfl hs
      have hl := sort_pass_length (n - 1) 1 g false
      obtain ⟨r, h1, h2, h3⟩ := ih (sort_pass (n - 1) 1 g false).1 (by omega) (by omega)
      exact ⟨r, h1, by omega, h3⟩
    · have hs2 : (sort_pass (n - 1) 1 g false).2 = false := by
        cases hb : (sort_pass (n - 1) 1 g false).2 with
        | true => exact absurd hb hs
        | false => rfl
      simp only [hs2]
      have h1 := (sort_pass_noswap (n - 1) 1 g hs2).1
      refine ⟨(sort_pass (n - 1) 1 g false).1, by simp, by rw [h1], ?_⟩
      rw [h1]
      exact Prod.ext h1 hs2

/-- The result of the loop does not depend on the bound once the bound exceeds
the number of inversions. -/
theorem silly_sort_fuel_indep (n f1 f2 : Nat) (g : List TFnTable) (hn : n ≤ g.length)
    (h1 : inversions g < f1) (h2 : inversions g < f2) :
    silly_sort_fuel n f1 g = silly_sort_fuel n f2 g := by
  induction f1 generalizing f2 g with
  | zero => omega
  | succ f1 ih =>
    cases f2 with
    | zero => omega
    | succ f2 =>
      rw [silly_sort_fuel, silly_sort_fuel]
      by_cases hs : (sort_pass (n - 1) 1 g false).2 = true
      · simp only [hs, if_true]
        have hlt :=
          (sort_pass_inversions (n - 1) 1 g false (Nat.le_refl 1) (by omega)).2 rfl hs
        have hl := sort_pass_length (n - 1) 1 g false
        exact ih f2 _ (by omega) (by omega) (by omega)
      · have hs2 : (sort_pass (n - 1) 1 g false).2 = false := by
          cases hb : (sort_pass (n - 1) 1 g false).2 with
          | true => exact absurd hb hs
          | false => rfl
        simp [hs2]

/-- The bound used by `silly_sort` is enough: whenever `g_fn_count` is within
the array, every larger bound makes the loop return, and it returns
`silly_sort n g`. -/
theorem silly_sort_fuel_enough (n fuel : Nat) (g : List TFnTable) (hn : n ≤ g.length)
    (hf : inversions g < fuel) :
    silly_sort_fuel n fuel g = some (silly_sort n g) := by
  obtain ⟨r, h1, _, _⟩ := silly_sort_fuel_some n (inversions g + 1) g hn (by omega)
  rw [silly_sort_fuel_indep n fuel (inversions g + 1) g hn hf (by omega)]
  unfold silly_sort
  rw [h1]

theorem silly_sort_length (n : Nat) (g : List TFnTable) (hn : n ≤ g.length) :
    (silly_sort n g).length = g.length := by
  obtain ⟨r, h1, h2, _⟩ := silly_sort_fuel_some n (inversions g + 1) g hn (by omega)
  unfold silly_sort
  rw [h1]; exact h2

/-- After the sort, each of the first `n` records has a hash at least that of
its predecessor. -/
theorem silly_sort_adjacent (n : Nat) (g : List TFnTable) (hn : n ≤ g.length) (j : Nat)
    (h1 : 1 ≤ j) (h2 : j < n) :
    (fnAt (silly_sort n g) (j - 1)).hash ≤ (fnAt (silly_sort n g) j).hash := by
  obtain ⟨r, hr, _, h3⟩ := silly_sort_fuel_some n (inversions g + 1) g hn (by omega)
  have hr2 : silly_sort n g = r := by unfold silly_sort; rw [hr]
  rw [hr2]
  have h4 : (sort_pass (n - 1) 1 r false).2 = false := by rw [h3]
  exact (sort_pass_noswap (n - 1) 1 r h4).2 j h1 (by omega)

/-- The records `g[0 .. n)` are sorted by hash in ascending order. -/
theorem sorted_of_adjacent (g : List TFnTable) (n : Nat)
    (h : ∀ j, 1 ≤ j → j < n → (fnAt g (j - 1)).hash ≤ (fnAt g j).hash) (i j : Nat)
    (hij : i ≤ j) (hj : j < n) : (fnAt g i).hash ≤ (fnAt g j).hash := by
  induction j with
  | zero =>
    have : i = 0 := by omega
    subst this; exact Nat.le_refl _
  | succ j ih =>
    by_cases he : i = j + 1
    · subst he; exact Nat.le_refl _
    · have h1 := ih (by omega) (by omega)
      have h2 := h (j + 1) (by omega) hj
      simp only [Nat.add_sub_cancel] at h2
      omega

/-! ## The three loops of `vmpu_box_add_fn` -/

/-- The append loop: it overflows exactly when the batch does not fit, stores
`min (n + k) 16` records in all, and touches neither the hash index nor the
box counter. -/
theorem add_new_functions_spec (box_id k : Nat) (fn : List Nat) (s : VmpuState)
    (h : s.g_fn_count ≤ MPU_MAX_PRIVATE_FUNCTIONS) :
    ((add_new_functions box_id k fn s).2 = true ↔
        MPU_MAX_PRIVATE_FUNCTIONS < s.g_fn_count + k) ∧
      (add_new_functions box_id k fn s).1.g_fn_count
        = min (s.g_fn_count + k) MPU_MAX_PRIVATE_FUNCTIONS ∧
      (add_new_functions box_id k fn s).1.g_fn.length = s.g_fn.length ∧
      (add_new_functions box_id k fn s).1.g_fn_hash = s.g_fn_hash ∧
      (add_new_functions box_id k fn s).1.g_fn_box_count = s.g_fn_box_count := by
  induction k generalizing fn s with
  | zero =>
    refine ⟨?_, ?_, rfl, rfl, rfl⟩
    · simp only [add_new_functions]
      constructor
      · intro hf; cases hf
      · intro hf; omega
    · simp only [add_new_functions]; omega
  | succ k ih =>
    rw [add_new_functions]
    by_cases hc : s.g_fn_count ≥ MPU_MAX_PRIVATE_FUNCTIONS
    · rw [if_pos hc]
      refine ⟨?_, ?_, rfl, rfl, rfl⟩
      · constructor
        · intro _; omega
        · intro _; trivial
      · show s.g_fn_count = _
        omega
    · rw [if_neg hc]
      obtain ⟨h1, h2, h3, h4, h5⟩ := ih fn.tail
        { s with
          g_fn := s.g_fn.set s.g_fn_count
            { fnAt s.g_fn s.g_fn_count with
              addr := fn.headD 0 % 2 ^ 32
              hash := vmpu_hash_addr (fn.headD 0 % 2 ^ 32)
              box_id := box_id }
          g_fn_count := s.g_fn_count + 1 } (by simp only; omega)
      simp only [List.length_set] at h1 h2 h3 h4 h5
      refine ⟨?_, ?_, h3, h4, h5⟩
      · rw [h1]; constructor <;> intro _ <;> omega
      · rw [h2]; omega

theorem same_records_refl (s : VmpuState) : same_records s s :=
  ⟨rfl, rfl, rfl, rfl, fun _ => ⟨rfl, rfl, rfl⟩⟩

theorem same_records_trans (s t u : VmpuState) (h1 : same_records s t)
    (h2 : same_records t u) : same_records s u := by
  obtain ⟨a1, b1, c1, d1, e1⟩ := h1
  obtain ⟨a2, b2, c2, d2, e2⟩ := h2
  refine ⟨a2.trans a1, b2.trans b1, c2.trans c1, d2.trans d1, fun q => ?_⟩
  obtain ⟨x1, y1, z1⟩ := e1 q
  obtain ⟨x2, y2, z2⟩ := e2 q
  exact ⟨x2.trans x1, y2.trans y1, z2.trans z1⟩

/-- Writing the `count` field of one record and one entry of the hash index
keeps the records. -/
theorem same_records_write (s : VmpuState) (p c : Nat) (gh : List Nat)
    (hgh : gh.length = s.g_fn_hash.length) :
    same_records s
      { s with g_fn := s.g_fn.set p { fnAt s.g_fn p with count := c }, g_fn_hash := gh } := by
  refine ⟨rfl, rfl, by simp, hgh, fun q => ?_⟩
  show (fnAt (s.g_fn.set p { fnAt s.g_fn p with count := c }) q).hash = _ ∧
    (fnAt (s.g_fn.set p { fnAt s.g_fn p with count := c }) q).addr = _ ∧
    (fnAt (s.g_fn.set p { fnAt s.g_fn p with count := c }) q).box_id = _
  rw [fnAt_set]
  by_cases hq : p = q ∧ p < s.g_fn.length
  · rw [if_pos hq, ← hq.1]; exact ⟨rfl, rfl, rfl⟩
  · rw [if_neg hq]; exact ⟨rfl, rfl, rfl⟩

/-- The index loop writes `count` fields and the hash index only. -/
theorem update_hash_table_frame (k i p j hprev : Nat) (s : VmpuState) :
    same_records s (update_hash_table k i p j hprev s) := by
  induction k generalizing i p j hprev s with
  | zero => exact same_records_refl s
  | succ k ih =>
    rw [update_hash_table]
    by_cases hc : (fnAt s.g_fn p).hash = hprev
    · refine same_records_trans _ _ _ (same_records_write s p 0 s.g_fn_hash rfl) ?_
      have h := ih (i + 1) (p + 1) j hprev
        { s with g_fn := s.g_fn.set p { fnAt s.g_fn p with count := 0 } }
      simpa only [if_pos hc] using h
    · refine same_records_trans _ _ _
        (same_records_write s j ((i - j) % 0x100) (s.g_fn_hash.set hprev (j % 0x100))
          (by simp)) ?_
      have h := ih (i + 1) (p + 1) i (fnAt s.g_fn p).hash
        { s with
          g_fn := s.g_fn.set j { fnAt s.g_fn j with count := (i - j) % 0x100 }
          g_fn_hash := s.g_fn_hash.set hprev (j % 0x100) }
      simpa only [if_neg hc] using h

/-! ## `vmpu_box_add_fn` as a whole -/

/-- The state in which `vmpu_box_add_fn` enters its index loop: the appended
records, sorted. -/
theorem vmpu_box_add_fn_overflow (s : VmpuState) (box_id : Nat) (fn : List Nat)
    (count : Nat) (h : (add_new_functions box_id count fn s).2 = true) :
    vmpu_box_add_fn s box_id fn count = ((add_new_functions box_id count fn s).1, -1) := by
  unfold vmpu_box_add_fn
  exact if_pos h

theorem vmpu_box_add_fn_ok (s : VmpuState) (box_id : Nat) (fn : List Nat)
    (count : Nat) (h : ¬ (add_new_functions box_id count fn s).2 = true) :
    ∃ t, same_records
        { (add_new_functions box_id count fn s).1 with
          g_fn := silly_sort (add_new_functions box_id count fn s).1.g_fn_count
            (add_new_functions box_id count fn s).1.g_fn } t ∧
      vmpu_box_add_fn s box_id fn count = (t, (t.g_fn_count : Int)) := by
  refine ⟨_, update_hash_table_frame
    ((add_new_functions box_id count fn s).1.g_fn_count - 1) 1 0 0
    (fnAt (silly_sort (add_new_functions box_id count fn s).1.g_fn_count
      (add_new_functions box_id count fn s).1.g_fn) 0).hash _, ?_⟩
  unfold vmpu_box_add_fn
  exact if_neg h

/-- The returned value and the stored count of `vmpu_box_add_fn`. -/
theorem vmpu_box_add_fn_result (s : VmpuState) (box_id : Nat) (fn : List Nat) (count : Nat)
    (h : s.g_fn_count ≤ MPU_MAX_PRIVATE_FUNCTIONS) :
    ((vmpu_box_add_fn s box_id fn count).2 = -1 ↔
        MPU_MAX_PRIVATE_FUNCTIONS < s.g_fn_count + count) ∧
      (s.g_fn_count + count ≤ MPU_MAX_PRIVATE_FUNCTIONS →
        (vmpu_box_add_fn s box_id fn count).2 = ((s.g_fn_count + count : Nat) : Int)) ∧
      (vmpu_box_add_fn s box_id fn count).1.g_fn_count
        = min (s.g_fn_count + count) MPU_MAX_PRIVATE_FUNCTIONS := by
  obtain ⟨h1, h2, _, _, _⟩ := add_new_functions_spec box_id count fn s h
  by_cases hov : (add_new_functions box_id count fn s).2 = true
  · have hlt := h1.mp hov
    rw [vmpu_box_add_fn_overflow s box_id fn count hov]
    exact ⟨⟨fun _ => hlt, fun _ => rfl⟩, fun hle => absurd hlt (by omega), h2⟩
  · have hle : ¬ MPU_MAX_PRIVATE_FUNCTIONS < s.g_fn_count + count :=
      fun hlt => hov (h1.mpr hlt)
    obtain ⟨t, ht, heq⟩ := vmpu_box_add_fn_ok s box_id fn count hov
    have hcnt : t.g_fn_count = min (s.g_fn_count + count) MPU_MAX_PRIVATE_FUNCTIONS :=
      ht.1.trans h2
    rw [heq]
    refine ⟨⟨fun hneg => ?_, fun hlt => absurd hlt hle⟩, fun _ => ?_, hcnt⟩
    · exfalso
      have h0 : (0 : Int) ≤ (t.g_fn_count : Int) := Int.ofNat_nonneg _
      simp only at hneg
      omega
    · show (t.g_fn_count : Int) = _
      rw [hcnt, Nat.min_eq_left (by omega)]

/-- The bounds of the state are kept by `vmpu_box_add_fn`, on success and on
overflow. -/
theorem vmpu_box_add_fn_wf (s : VmpuState) (box_id : Nat) (fn : List Nat) (count : Nat)
    (h : s.wf) : (vmpu_box_add_fn s box_id fn count).1.wf := by
  obtain ⟨hl, hh, hc⟩ := h
  obtain ⟨_, h2, h3, h4, _⟩ := add_new_functions_spec box_id count fn s hc
  have hcnt : (add_new_functions box_id count fn s).1.g_fn_count
      ≤ (add_new_functions box_id count fn s).1.g_fn.length := by
    rw [h2, h3, hl]; omega
  by_cases hov : (add_new_functions box_id count fn s).2 = true
  · rw [vmpu_box_add_fn_overflow s box_id fn count hov]
    exact ⟨by rw [h3, hl], by rw [h4, hh], by rw [h2]; omega⟩
  · obtain ⟨t, ⟨a, _, c, d, _⟩, heq⟩ := vmpu_box_add_fn_ok s box_id fn count hov
    rw [heq]
    simp only at a c d
    refine ⟨?_, ?_, ?_⟩
    · show t.g_fn.length = _
      rw [c, silly_sort_length _ _ hcnt, h3, hl]
    · show t.g_fn_hash.length = _
      rw [d, h4, hh]
    · show t.g_fn_count ≤ _
      rw [a, h2]; omega

/-- A call of `vmpu_box_add_fn` that does not return the overflow error leaves
the stored records sorted by hash, whatever the order they were in before. -/
theorem vmpu_box_add_fn_sorted (s : VmpuState) (box_id : Nat) (fn : List Nat) (count : Nat)
    (h : s.wf) (hok : (vmpu_box_add_fn s box_id fn count).2 ≠ -1) :
    sorted_by_hash (vmpu_box_add_fn s box_id fn count).1 := by
  obtain ⟨hl, hh, hc⟩ := h
  obtain ⟨_, h2, h3, h4, _⟩ := add_new_functions_spec box_id count fn s hc
  have hcnt : (add_new_functions box_id count fn s).1.g_fn_count
      ≤ (add_new_functions box_id count fn s).1.g_fn.length := by
    rw [h2, h3, hl]; omega
  by_cases hov : (add_new_functions box_id count fn s).2 = true
  · rw [vmpu_box_add_fn_overflow s box_id fn count hov] at hok
    exact absurd rfl hok
  · obtain ⟨t, ⟨a, _, _, _, e⟩, heq⟩ := vmpu_box_add_fn_ok s box_id fn count hov
    rw [heq]
    simp only at a e
    intro i j hij hj
    show (fnAt t.g_fn i).hash ≤ (fnAt t.g_fn j).hash
    have hj2 : j < (add_new_functions box_id count fn s).1.g_fn_count := by
      rw [← a]; exact hj
    rw [(e i).1, (e j).1]
    exact sorted_of_adjacent _ _ (fun q hq1 hq2 => silly_sort_adjacent _ _ hcnt q hq1 hq2)
      i j hij hj2

theorem init_wf : VmpuState.init.wf :=
  ⟨List.length_replicate _ _, List.length_replicate _ _, Nat.zero_le _⟩

theorem run_box_add_fn_wf (calls : List (Nat × List Nat)) (s : VmpuState) (h : s.wf) :
    (run_box_add_fn s calls).wf := by
  induction calls generalizing s with
  | nil => exact h
  | cons c cs ih =>
    rw [run_box_add_fn]
    exact ih _ (vmpu_box_add_fn_wf s c.1 c.2 c.2.length h)

/-! ## Claims on the trap router -/

theorem svc_vtor_tbl_count_eq : svc_vtor_tbl_count = 23 := by decide

/-- C2: a nonzero operand with the selector bit clear, on either path, enters
exactly `g_svc_vtor_tbl[i]` when `i < 24`; when `i ≥ 24` nothing is entered,
the exception returns and the trapped context is unchanged. -/
theorem svc_slow_dispatch (x : SvcExports) (c : TrapContext)
    (h0 : c.imm % 0x100 ≠ 0)
    (hslow : (c.imm % 0x100) &&& (x.UVISOR_SVC_MODE_MASK &&& 0xFF) = 0) :
    g_svc_vtor_tbl.length = 24 ∧
      (c.imm % 0x100 < g_svc_vtor_tbl.length →
        ∃ h, g_svc_vtor_tbl[c.imm % 0x100]? = some h ∧
          SVCall_IRQn_Handler x c =
            SvcTransfer.call (decide (c.lr &&& 4 = 0)) (c.imm % 0x100) (some h)
              c.r0 c.r1 c.r2 c.r3) ∧
      (g_svc_vtor_tbl.length ≤ c.imm % 0x100 →
        SVCall_IRQn_Handler x c = SvcTransfer.discard ∧
          ∀ result, SVCall_IRQn_Handler_context x result c = c) := by
  have hlen : g_svc_vtor_tbl.length = 24 := by decide
  have hp : called_from_priv x c = custom_table_priv c (c.imm % 0x100) := by
    unfold called_from_priv
    simp only [if_neg h0, if_pos hslow]
  have hu : called_from_unpriv x c = custom_table_unpriv c (c.imm % 0x100) := by
    unfold called_from_unpriv
    simp only [if_neg h0, if_pos hslow]
  refine ⟨hlen, fun hlt => ?_, fun hge => ?_⟩
  · refine ⟨g_svc_vtor_tbl[c.imm % 0x100], List.getElem?_eq_getElem hlt, ?_⟩
    have hle : c.imm % 0x100 ≤ svc_vtor_tbl_count := by
      rw [svc_vtor_tbl_count_eq]; omega
    unfold SVCall_IRQn_Handler
    by_cases hlr : c.lr &&& 4 = 0
    · rw [if_pos hlr, hp]
      unfold custom_table_priv
      rw [if_pos hle, List.getElem?_eq_getElem hlt]
      simp [hlr]
    · rw [if_neg hlr, hu]
      unfold custom_table_unpriv
      rw [if_pos hle, List.getElem?_eq_getElem hlt]
      simp [hlr]
  · have hgt : ¬ c.imm % 0x100 ≤ svc_vtor_tbl_count := by
      rw [svc_vtor_tbl_count_eq]; omega
    have hd : SVCall_IRQn_Handler x c = SvcTransfer.discard := by
      unfold SVCall_IRQn_Handler
      by_cases hlr : c.lr &&& 4 = 0
      · rw [if_pos hlr, hp]
        unfold custom_table_priv
        rw [if_neg hgt]
      · rw [if_neg hlr, hu]
        unfold custom_table_unpriv
        rw [if_neg hgt]
    refine ⟨hd, fun result => ?_⟩
    unfold SVCall_IRQn_Handler_context
    rw [hd]

theorem svc_slow_dispatch_witness :
    (23 : Nat) % 0x100 ≠ 0 ∧
      ((23 : Nat) % 0x100) &&& (svc_exports.UVISOR_SVC_MODE_MASK &&& 0xFF) = 0 ∧
      (g_svc_vtor_tbl.length = 24 ∧
        ((23 : Nat) % 0x100 < g_svc_vtor_tbl.length →
          ∃ h, g_svc_vtor_tbl[(23 : Nat) % 0x100]? = some h ∧
            SVCall_IRQn_Handler svc_exports ⟨0xFFFFFFFD, 0x20001000, 0x20002000, 1, 2, 3, 4, 0x8002, 23⟩ =
              SvcTransfer.call (decide ((0xFFFFFFFD : Nat) &&& 4 = 0)) ((23 : Nat) % 0x100)
                (some h) 1 2 3 4) ∧
        (g_svc_vtor_tbl.length ≤ (23 : Nat) % 0x100 →
          SVCall_IRQn_Handler svc_exports ⟨0xFFFFFFFD, 0x20001000, 0x20002000, 1, 2, 3, 4, 0x8002, 23⟩ =
              SvcTransfer.discard ∧
            ∀ result, SVCall_IRQn_Handler_context svc_exports result
              ⟨0xFFFFFFFD, 0x20001000, 0x20002000, 1, 2, 3, 4, 0x8002, 23⟩ =
              ⟨0xFFFFFFFD, 0x20001000, 0x20002000, 1, 2, 3, 4, 0x8002, 23⟩)) :=
  ⟨by decide, by decide,
    svc_slow_dispatch svc_exports ⟨0xFFFFFFFD, 0x20001000, 0x20002000, 1, 2, 3, 4, 0x8002, 23⟩
      (by decide) (by decide)⟩

/-- C3: an operand with the selector bit set, the fast index mask being one of
a table of width 16: the masked index is below the 16 entries of either fast
table, and the handler jumps to the entry of the table of its privilege level
at that index.  The handler reads no state besides the trap itself, so earlier
traps cannot matter.  The named slots are as the tables list them. -/
theorem svc_fast_dispatch (x : SvcExports) (c : TrapContext)
    (hw : x.UVISOR_SVC_FAST_INDEX_MASK &&& 0xFF < 16)
    (hfast : (c.imm % 0x100) &&& (x.UVISOR_SVC_MODE_MASK &&& 0xFF) ≠ 0) :
    jump_table_unpriv.length = 16 ∧ jump_table_priv.length = 16 ∧
      (c.imm % 0x100) &&& (x.UVISOR_SVC_FAST_INDEX_MASK &&& 0xFF) < 16 ∧
      (c.lr &&& 4 ≠ 0 →
        ∃ h, jump_table_unpriv[(c.imm % 0x100) &&& (x.UVISOR_SVC_FAST_INDEX_MASK &&& 0xFF)]?
            = some h ∧
          SVCall_IRQn_Handler x c =
            SvcTransfer.jump false
              ((c.imm % 0x100) &&& (x.UVISOR_SVC_FAST_INDEX_MASK &&& 0xFF)) (some h)
              c.psp ((c.pc + (2 ^ 32 - 2)) % 2 ^ 32) (c.imm % 0x100)) ∧
      (c.lr &&& 4 = 0 →
        ∃ h, jump_table_priv[(c.imm % 0x100) &&& (x.UVISOR_SVC_FAST_INDEX_MASK &&& 0xFF)]?
            = some h ∧
          SVCall_IRQn_Handler x c =
            SvcTransfer.jump true
              ((c.imm % 0x100) &&& (x.UVISOR_SVC_FAST_INDEX_MASK &&& 0xFF)) (some h)
              c.msp ((c.pc + (2 ^ 32 - 2)) % 2 ^ 32) (c.imm % 0x100)) ∧
      jump_table_unpriv[0]? = some SvcSymbol.unvic_gateway_out ∧
      jump_table_unpriv[3]? = some SvcSymbol.register_gateway_perform_operation ∧
      jump_table_unpriv[4]? = some SvcSymbol.box_init_first ∧
      jump_table_unpriv[5]? = some SvcSymbol.box_init_next ∧
      jump_table_priv[0]? = some SvcSymbol.unvic_gateway_in := by
  have hlu : jump_table_unpriv.length = 16 := by decide
  have hlp : jump_table_priv.length = 16 := by decide
  have hidx : (c.imm % 0x100) &&& (x.UVISOR_SVC_FAST_INDEX_MASK &&& 0xFF) < 16 :=
    Nat.lt_of_le_of_lt Nat.and_le_right hw
  have h0 : c.imm % 0x100 ≠ 0 := by
    intro hz
    rw [hz] at hfast
    exact hfast (Nat.zero_and _)
  refine ⟨hlu, hlp, hidx, fun hlr => ?_, fun hlr => ?_, by decide, by decide, by decide,
    by decide, by decide⟩
  · have hlt : (c.imm % 0x100) &&& (x.UVISOR_SVC_FAST_INDEX_MASK &&& 0xFF)
        < jump_table_unpriv.length := by rw [hlu]; exact hidx
    refine ⟨_, List.getElem?_eq_getElem hlt, ?_⟩
    unfold SVCall_IRQn_Handler
    rw [if_neg hlr]
    unfold called_from_unpriv
    simp only [if_neg h0, if_neg hfast]
    rw [List.getElem?_eq_getElem hlt]
  · have hlt : (c.imm % 0x100) &&& (x.UVISOR_SVC_FAST_INDEX_MASK &&& 0xFF)
        < jump_table_priv.length := by rw [hlp]; exact hidx
    refine ⟨_, List.getElem?_eq_getElem hlt, ?_⟩
    unfold SVCall_IRQn_Handler
    rw [if_pos hlr]
    unfold called_from_priv
    simp only [if_neg h0, if_neg hfast]
    rw [List.getElem?_eq_getElem hlt]

theorem svc_fast_dispatch_witness :
    SVCall_IRQn_Handler svc_exports ⟨0xFFFFFFFD, 0x20001000, 0x20002000, 1, 2, 3, 4, 0x8002, 0x84⟩
      = SvcTransfer.jump false 4 (some SvcSymbol.box_init_first) 0x20001000 0x8000 0x84 := by
  obtain ⟨h, h1, h2⟩ := (svc_fast_dispatch svc_exports
    ⟨0xFFFFFFFD, 0x20001000, 0x20002000, 1, 2, 3, 4, 0x8002, 0x84⟩
    (by decide) (by decide)).2.2.2.1 (by decide)
  rw [h2]
  have h3 : h = SvcSymbol.box_init_first := by
    have h4 : jump_table_unpriv[4]? = some h := h1
    have h5 : jump_table_unpriv[4]? = some SvcSymbol.box_init_first := by decide
    rw [h5] at h4
    exact (Option.some.inj h4).symm
  rw [h3]
  decide

/-- C4: operand 0 goes to the hook `g_priv_sys_hooks.priv_svc_0` on either
path, with no table entry loaded, and no nonzero operand goes to the hook. -/
theorem svc_zero_operand_hook (x : SvcExports) (c : TrapContext) :
    (c.imm % 0x100 = 0 →
        SVCall_IRQn_Handler x c = SvcTransfer.hook ((c.pc + (2 ^ 32 - 2)) % 2 ^ 32) 0) ∧
      (c.imm % 0x100 ≠ 0 → ∀ r1 r2, SVCall_IRQn_Handler x c ≠ SvcTransfer.hook r1 r2) := by
  constructor
  · intro hz
    unfold SVCall_IRQn_Handler called_from_priv called_from_unpriv
    simp only [if_pos hz]
    split <;> rw [hz]
  · intro h0 r1 r2
    unfold SVCall_IRQn_Handler called_from_priv called_from_unpriv custom_table_priv
      custom_table_unpriv
    simp only [if_neg h0]
    split
    · split
      · split <;> exact fun h => SvcTransfer.noConfusion h
      · exact fun h => SvcTransfer.noConfusion h
    · split
      · split <;> exact fun h => SvcTransfer.noConfusion h
      · exact fun h => SvcTransfer.noConfusion h

/-! ## Claims on the box function registry -/

theorem run_box_add_fn_append (s : VmpuState) (xs ys : List (Nat × List Nat)) :
    run_box_add_fn s (xs ++ ys) = run_box_add_fn (run_box_add_fn s xs) ys := by
  induction xs generalizing s with
  | nil => rfl
  | cons c cs ih => exact ih _

/-- C1: box 1 registers the addresses 1 and 2, then box 2 registers 3 and 4;
both calls succeed (they return 2 and 4).  Afterwards `vmpu_fn_box` returns
-1 for the addresses 1, 3 and 4 and 0 for the address 2: none of the four is
resolved to its box. -/
theorem vmpu_fn_box_two_boxes_unresolved :
    (vmpu_box_add_fn VmpuState.init 1 [1, 2] 2).2 = 2 ∧
      (vmpu_box_add_fn (vmpu_box_add_fn VmpuState.init 1 [1, 2] 2).1 2 [3, 4] 2).2 = 4 ∧
      vmpu_fn_box (run_box_add_fn VmpuState.init [(1, [1, 2]), (2, [3, 4])]) 1 = -1 ∧
      vmpu_fn_box (run_box_add_fn VmpuState.init [(1, [1, 2]), (2, [3, 4])]) 2 = 0 ∧
      vmpu_fn_box (run_box_add_fn VmpuState.init [(1, [1, 2]), (2, [3, 4])]) 3 = -1 ∧
      vmpu_fn_box (run_box_add_fn VmpuState.init [(1, [1, 2]), (2, [3, 4])]) 4 = -1 := by
  decide

/-- C5: from a state with `n ≤ 16` stored records, a call with `count = c`
returns -1 exactly when `n + c > 16`; otherwise it returns `n + c`, which is
also the number of records stored after the call. -/
theorem vmpu_box_add_fn_overflow_iff (s : VmpuState) (box_id : Nat) (fn : List Nat)
    (count : Nat) (hn : s.g_fn_count ≤ MPU_MAX_PRIVATE_FUNCTIONS) :
    MPU_MAX_PRIVATE_FUNCTIONS = 16 ∧
      ((vmpu_box_add_fn s box_id fn count).2 = -1 ↔
        s.g_fn_count + count > MPU_MAX_PRIVATE_FUNCTIONS) ∧
      (¬ s.g_fn_count + count > MPU_MAX_PRIVATE_FUNCTIONS →
        (vmpu_box_add_fn s box_id fn count).2 = ((s.g_fn_count + count : Nat) : Int) ∧
          (vmpu_box_add_fn s box_id fn count).1.g_fn_count = s.g_fn_count + count) := by
  obtain ⟨h1, h2, h3⟩ := vmpu_box_add_fn_result s box_id fn count hn
  refine ⟨rfl, h1, fun hle => ⟨h2 (by omega), ?_⟩⟩
  rw [h3]; omega

theorem vmpu_box_add_fn_overflow_iff_witness :
    (vmpu_box_add_fn VmpuState.init 1 [1, 2, 3, 4, 5, 6, 7, 8, 9, 10] 10).1.g_fn_count
        ≤ MPU_MAX_PRIVATE_FUNCTIONS ∧
      (vmpu_box_add_fn VmpuState.init 1 [1, 2, 3, 4, 5, 6, 7, 8, 9, 10] 10).2 = 10 ∧
      (vmpu_box_add_fn (vmpu_box_add_fn VmpuState.init 1 [1, 2, 3, 4, 5, 6, 7, 8, 9, 10] 10).1
        2 [11, 12, 13, 14, 15, 16, 17, 18, 19, 20] 10).2 = -1 := by
  have h1 := vmpu_box_add_fn_overflow_iff VmpuState.init 1 [1, 2, 3, 4, 5, 6, 7, 8, 9, 10] 10
    (by decide)
  have h2 := vmpu_box_add_fn_overflow_iff
    (vmpu_box_add_fn VmpuState.init 1 [1, 2, 3, 4, 5, 6, 7, 8, 9, 10] 10).1
    2 [11, 12, 13, 14, 15, 16, 17, 18, 19, 20] 10 (by decide)
  refine ⟨by decide, ?_, ?_⟩
  · exact (h1.2.2 (by decide)).1
  · exact h2.2.1.mpr (by decide)

/-- C6, as stated, fails: one call with 17 addresses of descending hash ends in
overflow (it returns -1) with 16 records stored in the order given, so the
stored records are not sorted. -/
theorem overflow_leaves_records_unsorted :
    (vmpu_box_add_fn VmpuState.init 1
        [17, 16, 15, 14, 13, 12, 11, 10, 9, 8, 7, 6, 5, 4, 3, 2, 1] 17).2 = -1 ∧
      ¬ sorted_by_hash (run_box_add_fn VmpuState.init
        [(1, [17, 16, 15, 14, 13, 12, 11, 10, 9, 8, 7, 6, 5, 4, 3, 2, 1])]) := by
  refine ⟨by decide, fun h => ?_⟩
  have h01 := h 0 1 (by decide) (by decide)
  revert h01
  decide

/-- C6, amended: after every finite sequence of calls from the empty registry
whose last call did not end in overflow (whatever the earlier calls did), the
stored records are sorted by hash in ascending order. -/
theorem sorted_after_add_fn_without_overflow (calls : List (Nat × List Nat))
    (box_id : Nat) (fn : List Nat)
    (hok : (vmpu_box_add_fn (run_box_add_fn VmpuState.init calls) box_id fn fn.length).2 ≠ -1) :
    sorted_by_hash (run_box_add_fn VmpuState.init (calls ++ [(box_id, fn)])) := by
  rw [run_box_add_fn_append]
  exact vmpu_box_add_fn_sorted _ box_id fn fn.length (run_box_add_fn_wf calls _ init_wf) hok

theorem sorted_after_add_fn_without_overflow_witness :
    (vmpu_box_add_fn (run_box_add_fn VmpuState.init [(1, [4, 3])]) 2 [2, 1]
        [2, 1].length).2 ≠ -1 ∧
      sorted_by_hash (run_box_add_fn VmpuState.init ([(1, [4, 3])] ++ [(2, [2, 1])])) :=
  ⟨by decide, sorted_after_add_fn_without_overflow [(1, [4, 3])] 2 [2, 1] (by decide)⟩

/-- C7: one successful call registers the addresses 1, 2, 3, 4 (hashes 1, 2,
3, 4, one record each, at indices 0 to 3).  Afterwards `g_fn_hash[2]` is 2
although the record with hash 2 is at index 1, `g_fn_hash[3]` and `g_fn_hash[4]`
are 0 although their records are at indices 2 and 3, and the first record has
`count` 2 although its run has one record. -/
theorem hash_index_off_by_one :
    (vmpu_box_add_fn VmpuState.init 1 [1, 2, 3, 4] 4).2 = 4 ∧
      ((vmpu_box_add_fn VmpuState.init 1 [1, 2, 3, 4] 4).1.g_fn.take 4).map
          (fun r => (r.hash, r.count)) = [(1, 2), (2, 0), (3, 1), (4, 0)] ∧
      (vmpu_box_add_fn VmpuState.init 1 [1, 2, 3, 4] 4).1.g_fn_hash.getD 2 0 = 2 ∧
      (vmpu_box_add_fn VmpuState.init 1 [1, 2, 3, 4] 4).1.g_fn_hash.getD 3 0 = 0 ∧
      (vmpu_box_add_fn VmpuState.init 1 [1, 2, 3, 4] 4).1.g_fn_hash.getD 4 0 = 0 := by
  decide

/-- C8: after one successful call with the addresses 1, 2, 0x200, 0x20000, 3,
0x300 the index entry of hash 2 is the start index 2, whose record has
`count` 3 with `2 + 3 ≤ g_fn_count = 6`; the record at index 3 has the address
0x20000 and box 1, yet `vmpu_fn_box 0x20000` returns 0, because the scan
compares the record at index 2 each time. -/
theorem vmpu_fn_box_scan_stays_on_first_record :
    (vmpu_box_add_fn VmpuState.init 1 [1, 2, 0x200, 0x20000, 3, 0x300] 6).2 = 6 ∧
      (vmpu_box_add_fn VmpuState.init 1 [1, 2, 0x200, 0x20000, 3, 0x300] 6).1.g_fn_hash.getD
          (vmpu_hash_addr 0x20000) 0 = 2 ∧
      (fnAt (vmpu_box_add_fn VmpuState.init 1 [1, 2, 0x200, 0x20000, 3, 0x300] 6).1.g_fn
          2).count = 3 ∧
      (fnAt (vmpu_box_add_fn VmpuState.init 1 [1, 2, 0x200, 0x20000, 3, 0x300] 6).1.g_fn
          2).addr = 0x200 ∧
      (fnAt (vmpu_box_add_fn VmpuState.init 1 [1, 2, 0x200, 0x20000, 3, 0x300] 6).1.g_fn
          3).addr = 0x20000 ∧
      (fnAt (vmpu_box_add_fn VmpuState.init 1 [1, 2, 0x200, 0x20000, 3, 0x300] 6).1.g_fn
          3).box_id = 1 ∧
      vmpu_fn_box (vmpu_box_add_fn VmpuState.init 1 [1, 2, 0x200, 0x20000, 3, 0x300] 6).1
          0x20000 = 0 := by
  decide

/-- C9: the first call of `vmpu_box_add`, with a descriptor of one address,
returns 0 and only increments `g_fn_box_count`: `vmpu_box_add_fn` is not
called and no record is stored. -/
theorem vmpu_box_add_first_call_stores_nothing :
    vmpu_box_add VmpuState.init ⟨[1], 1⟩ = ({ VmpuState.init with g_fn_box_count := 1 }, 0) ∧
      (vmpu_box_add VmpuState.init ⟨[1], 1⟩).1.g_fn_count = 0 :=
  ⟨rfl, rfl⟩

theorem run_box_add_empty (k : Nat) (s : VmpuState) :
    run_box_add s (List.replicate k ⟨[], 0⟩)
      = { s with g_fn_box_count := s.g_fn_box_count + k } := by
  induction k generalizing s with
  | zero => rfl
  | succ k ih =>
    rw [List.replicate_succ, run_box_add]
    have h : (vmpu_box_add s ⟨[], 0⟩).1 = { s with g_fn_box_count := s.g_fn_box_count + 1 } := by
      simp [vmpu_box_add]
    rw [h, ih]
    simp only [VmpuState.mk.injEq, true_and]
    omega

theorem run_box_add_append (s : VmpuState) (xs ys : List TBoxDesc) :
    run_box_add s (xs ++ ys) = run_box_add (run_box_add s xs) ys := by
  induction xs generalizing s with
  | nil => rfl
  | cons c cs ih => exact ih _

/-- C10: after 255 calls of `vmpu_box_add` with empty descriptors, the 256th
call, with a descriptor of the one address 1, stores a record for that address
whose `box_id` is 0. -/
theorem vmpu_box_add_256th_call_box_id_zero :
    (run_box_add VmpuState.init
        (List.replicate 255 ⟨[], 0⟩ ++ [⟨[1], 1⟩])).g_fn_count = 1 ∧
      (fnAt (run_box_add VmpuState.init
        (List.replicate 255 ⟨[], 0⟩ ++ [⟨[1], 1⟩])).g_fn 0).addr = 1 ∧
      (fnAt (run_box_add VmpuState.init
        (List.replicate 255 ⟨[], 0⟩ ++ [⟨[1], 1⟩])).g_fn 0).box_id = 0 := by
  rw [run_box_add_append, run_box_add_empty]
  decide

/-! ## The records written by the append loop -/

theorem getD_tail (fn : List Nat) (m : Nat) : fn.tail.getD m 0 = fn.getD (m + 1) 0 := by
  cases fn with
  | nil => rfl
  | cons a t => rfl

theorem headD_eq_getD (fn : List Nat) : fn.headD 0 = fn.getD 0 0 := by
  cases fn with
  | nil => rfl
  | cons a t => rfl

/-- The record the append loop stores for the address `a` in the slot that
held `r`. -/
theorem add_new_functions_records (box_id k : Nat) (fn : List Nat) (s : VmpuState) (q : Nat) :
    fnAt (add_new_functions box_id k fn s).1.g_fn q =
      if s.g_fn_count ≤ q ∧ q < s.g_fn_count + k ∧ q < MPU_MAX_PRIVATE_FUNCTIONS ∧
          q < s.g_fn.length then
        { fnAt s.g_fn q with
          addr := fn.getD (q - s.g_fn_count) 0 % 2 ^ 32
          hash := vmpu_hash_addr (fn.getD (q - s.g_fn_count) 0 % 2 ^ 32)
          box_id := box_id }
      else fnAt s.g_fn q := by
  induction k generalizing fn s with
  | zero =>
    rw [if_neg (by omega)]
    rfl
  | succ k ih =>
    rw [add_new_functions]
    by_cases hc : s.g_fn_count ≥ MPU_MAX_PRIVATE_FUNCTIONS
    · rw [if_pos hc, if_neg (by omega)]
    · rw [if_neg hc]
      rw [ih]
      simp only [List.length_set]
      by_cases hq : s.g_fn_count = q
      · subst hq
        rw [if_neg (by omega), fnAt_set]
        by_cases hl : s.g_fn_count < s.g_fn.length
        · rw [if_pos ⟨rfl, hl⟩, if_pos ⟨Nat.le_refl _, by omega, by omega, hl⟩]
          rw [Nat.sub_self, headD_eq_getD]
        · rw [if_neg (fun h => hl h.2), if_neg (fun h => hl h.2.2.2)]
      · have hg1 : ∀ v, fnAt (s.g_fn.set s.g_fn_count v) q = fnAt s.g_fn q := by
          intro v
          rw [fnAt_set, if_neg (fun h => hq h.1)]
        rw [hg1]
        by_cases hin : s.g_fn_count + 1 ≤ q ∧ q < s.g_fn_count + 1 + k ∧
            q < MPU_MAX_PRIVATE_FUNCTIONS ∧ q < s.g_fn.length
        · rw [if_pos hin, if_pos ⟨by omega, by omega, hin.2.2.1, hin.2.2.2⟩]
          rw [getD_tail]
          have hidx : q - (s.g_fn_count + 1) + 1 = q - s.g_fn_count := by omega
          rw [hidx]
        · rw [if_neg hin, if_neg (fun h => hin ⟨by omega, by omega, h.2.2.1, h.2.2.2⟩)]

/-! ## The sort permutes the stored records and is stable -/

theorem fnAt_append_left (a b : List TFnTable) (i : Nat) (h : i < a.length) :
    fnAt (a ++ b) i = fnAt a i := by
  unfold fnAt
  rw [List.getD_eq_getElem?_getD, List.getD_eq_getElem?_getD, List.getElem?_append_left h]

/-- A pass over the first records does not look at the rest of the array. -/
theorem sort_pass_append (k i : Nat) (a b : List TFnTable) (s : Bool) (hi : 1 ≤ i)
    (hk : k = 0 ∨ i + k ≤ a.length) :
    sort_pass k i (a ++ b) s = ((sort_pass k i a s).1 ++ b, (sort_pass k i a s).2) := by
  induction k generalizing i a s with
  | zero => rfl
  | succ k ih =>
    have hlen : i + (k + 1) ≤ a.length := by omega
    rw [sort_pass, sort_pass]
    rw [fnAt_append_left a b i (by omega), fnAt_append_left a b (i - 1) (by omega)]
    by_cases hc : (fnAt a i).hash < (fnAt a (i - 1)).hash
    · rw [if_pos hc, if_pos hc]
      dsimp only
      rw [List.set_append_left _ _ (by omega), List.set_append_left _ _ (by simp; omega)]
      exact ih (i + 1) _ true (by omega) (Or.inr (by simp; omega))
    · rw [if_neg hc, if_neg hc]
      exact ih (i + 1) a s (by omega) (Or.inr (by omega))

/-- Exchanging two adjacent records of different hash keeps, for every hash
value, the sequence of the records with that hash. -/
theorem filter_hash_swap (pre : List TFnTable) (x y : TFnTable) (rest : List TFnTable)
    (hne : x.hash ≠ y.hash) (h : Nat) :
    (pre ++ y :: x :: rest).filter (fun r => decide (r.hash = h))
      = (pre ++ x :: y :: rest).filter (fun r => decide (r.hash = h)) := by
  simp only [List.filter_append, List.filter_cons]
  by_cases hx : x.hash = h
  · have hy : ¬ y.hash = h := fun hy => hne (hx.trans hy.symm)
    simp [hx, hy]
  · simp [hx]

/-- A pass leaves a permutation of the array in which records of equal hash
keep their order. -/
theorem sort_pass_perm (k i : Nat) (g : List TFnTable) (s : Bool) (hi : 1 ≤ i)
    (hk : k = 0 ∨ i + k ≤ g.length) :
    (sort_pass k i g s).1.Perm g ∧
      ∀ h, (sort_pass k i g s).1.filter (fun r => decide (r.hash = h))
        = g.filter (fun r => decide (r.hash = h)) := by
  induction k generalizing i g s with
  | zero => exact ⟨List.Perm.refl _, fun _ => rfl⟩
  | succ k ih =>
    obtain ⟨pre, x, y, rest, hg, hpre⟩ := split_adjacent g i hi (by omega)
    rw [sort_pass]
    by_cases hc : (fnAt g i).hash < (fnAt g (i - 1)).hash
    · rw [if_pos hc]
      dsimp only
      have hsw : (g.set i (fnAt g (i - 1))).set (i - 1) (fnAt g i)
          = pre ++ y :: x :: rest := by
        rw [hg, ← hpre]; exact swap_adjacent pre x y rest
      have hyx : y.hash < x.hash := by
        rw [hg, ← hpre, fnAt_append_length_succ, Nat.add_sub_cancel,
          fnAt_append_length] at hc
        exact hc
      rw [hsw]
      have hlen : i + 1 + k ≤ (pre ++ y :: x :: rest).length := by
        have h2 : i + (k + 1) ≤ g.length := by omega
        rw [hg] at h2; simp at h2 ⊢; omega
      obtain ⟨h1, h2⟩ := ih (i + 1) (pre ++ y :: x :: rest) true (by omega) (Or.inr hlen)
      have hp : (pre ++ y :: x :: rest).Perm g := by
        rw [hg]
        exact List.Perm.append_left pre (List.Perm.swap x y rest)
      refine ⟨h1.trans hp, fun h => ?_⟩
      rw [h2 h, hg]
      exact filter_hash_swap pre x y rest (by omega) h
    · rw [if_neg hc]
      exact ih (i + 1) g s (by omega) (Or.inr (by omega))

/-- A pass over records that are already in order changes nothing. -/
theorem sort_pass_sorted (k i : Nat) (g : List TFnTable) (s : Bool)
    (h : ∀ j, i ≤ j → j < i + k → (fnAt g (j - 1)).hash ≤ (fnAt g j).hash) :
    sort_pass k i g s = (g, s) := by
  induction k generalizing i with
  | zero => rfl
  | succ k ih =>
    rw [sort_pass]
    have hc : ¬ (fnAt g i).hash < (fnAt g (i - 1)).hash := by
      have := h i (Nat.le_refl _) (by omega)
      omega
    rw [if_neg hc]
    exact ih (i + 1) (fun j h1 h2 => h j (by omega) (by omega))

/-- The loop returns a permutation in which records of equal hash keep their
order. -/
theorem silly_sort_fuel_perm (n fuel : Nat) (g r : List TFnTable) (hn : n ≤ g.length)
    (hr : silly_sort_fuel n fuel g = some r) :
    r.Perm g ∧ ∀ h, r.filter (fun x => decide (x.hash = h))
      = g.filter (fun x => decide (x.hash = h)) := by
  induction fuel generalizing g with
  | zero => cases hr
  | succ fuel ih =>
    rw [silly_sort_fuel] at hr
    obtain ⟨hp, hf⟩ := sort_pass_perm (n - 1) 1 g false (Nat.le_refl 1) (by omega)
    by_cases hs : (sort_pass (n - 1) 1 g false).2 = true
    · rw [if_pos hs] at hr
      have hl := sort_pass_length (n - 1) 1 g false
      obtain ⟨h1, h2⟩ := ih (sort_pass (n - 1) 1 g false).1 (by omega) hr
      exact ⟨h1.trans hp, fun h => (h2 h).trans (hf h)⟩
    · rw [if_neg hs] at hr
      cases hr
      exact ⟨hp, hf⟩

theorem silly_sort_perm (n : Nat) (g : List TFnTable) (hn : n ≤ g.length) :
    (silly_sort n g).Perm g ∧ ∀ h, (silly_sort n g).filter (fun x => decide (x.hash = h))
      = g.filter (fun x => decide (x.hash = h)) :=
  silly_sort_fuel_perm n (inversions g + 1) g _ hn
    (silly_sort_fuel_enough n (inversions g + 1) g hn (by omega))

theorem silly_sort_fuel_append (n fuel : Nat) (a b : List TFnTable) (hn : n ≤ a.length) :
    silly_sort_fuel n fuel (a ++ b) = (silly_sort_fuel n fuel a).map (fun r => r ++ b) := by
  induction fuel generalizing a with
  | zero => rfl
  | succ fuel ih =>
    rw [silly_sort_fuel, silly_sort_fuel]
    rw [sort_pass_append (n - 1) 1 a b false (Nat.le_refl 1) (by omega)]
    by_cases hs : (sort_pass (n - 1) 1 a false).2 = true
    · simp only [hs, if_true]
      exact ih _ (by rw [sort_pass_length]; exact hn)
    · simp only [hs]
      rfl

theorem inversions_append_le (a b : List TFnTable) : inversions a ≤ inversions (a ++ b) := by
  induction a with
  | nil => exact Nat.zero_le _
  | cons x t ih =>
    simp only [List.cons_append, inversions, List.append_eq, List.countP_append]
    omega

/-- The sort of the first `n` records leaves the rest of the array alone. -/
theorem silly_sort_append (n : Nat) (a b : List TFnTable) (hn : n ≤ a.length) :
    silly_sort n (a ++ b) = silly_sort n a ++ b := by
  have h1 := silly_sort_fuel_enough n (inversions (a ++ b) + 1) (a ++ b)
    (by rw [List.length_append]; omega) (by omega)
  have h2 := silly_sort_fuel_enough n (inversions (a ++ b) + 1) a hn
    (by have := inversions_append_le a b; omega)
  rw [silly_sort_fuel_append n _ a b hn, h2] at h1
  exact (Option.some.inj h1).symm

/-! ## Reads of the two arrays -/

theorem fnAt_eq_getElem (g : List TFnTable) (i : Nat) (h : i < g.length) :
    fnAt g i = g[i] := by
  unfold fnAt
  rw [List.getD_eq_getElem?_getD, List.getElem?_eq_getElem h]
  rfl

theorem fnAt_of_length_le (g : List TFnTable) (i : Nat) (h : g.length ≤ i) :
    fnAt g i = TFnTable.zero := by
  unfold fnAt
  rw [List.getD_eq_getElem?_getD, List.getElem?_eq_none h]
  rfl

theorem fnAt_append_right (a b : List TFnTable) (i : Nat) (h : a.length ≤ i) :
    fnAt (a ++ b) i = fnAt b (i - a.length) := by
  unfold fnAt
  rw [List.getD_eq_getElem?_getD, List.getD_eq_getElem?_getD, List.getElem?_append_right h]

theorem getD_set_nat (l : List Nat) (i k v : Nat) :
    (l.set i v).getD k 0 = if i = k ∧ i < l.length then v else l.getD k 0 := by
  simp only [List.getD_eq_getElem?_getD, List.getElem?_set]
  by_cases h : i = k
  · subst h
    by_cases h2 : i < l.length
    · simp [h2]
    · have h3 : l.length ≤ i := Nat.le_of_not_lt h2
      simp [h2, List.getElem?_eq_none h3]
  · simp [h]

/-- The sort moves records only inside `g[0 .. n)`: the record at an index of
the sorted array is the record the array had at an index on the same side of
`n`, and the other way round. -/
theorem silly_sort_positions (n : Nat) (g : List TFnTable) (hn : n ≤ g.length) :
    (∀ q, ∃ i, fnAt (silly_sort n g) q = fnAt g i ∧ (q < n ↔ i < n)) ∧
      (∀ i, ∃ q, fnAt (silly_sort n g) q = fnAt g i ∧ (q < n ↔ i < n)) := by
  have hg : g.take n ++ g.drop n = g := List.take_append_drop n g
  have hla : (g.take n).length = n := by rw [List.length_take]; omega
  have hs : silly_sort n g = silly_sort n (g.take n) ++ g.drop n := by
    conv => lhs; rw [← hg]
    exact silly_sort_append n _ _ (by omega)
  have hperm := (silly_sort_perm n (g.take n) (by omega)).1
  have hlr : (silly_sort n (g.take n)).length = n := by
    rw [silly_sort_length n _ (by omega), hla]
  have hright : ∀ q, n ≤ q → fnAt (silly_sort n g) q = fnAt g q := by
    intro q hq
    rw [hs, fnAt_append_right _ _ _ (by omega), hlr]
    conv => rhs; rw [← hg]
    rw [fnAt_append_right _ _ _ (by omega), hla]
  constructor
  · intro q
    by_cases hq : q < n
    · have hmem : fnAt (silly_sort n g) q ∈ g.take n := by
        rw [hs, fnAt_append_left _ _ _ (by omega), fnAt_eq_getElem _ _ (by omega)]
        exact hperm.subset (List.getElem_mem _)
      obtain ⟨i, hi, he⟩ := List.mem_iff_getElem.mp hmem
      refine ⟨i, ?_, ?_⟩
      · rw [← he]
        conv => rhs; rw [← hg]
        rw [fnAt_append_left _ _ _ hi, fnAt_eq_getElem _ _ hi]
      · constructor
        · intro _; omega
        · intro _; exact hq
    · exact ⟨q, hright q (by omega), Iff.rfl⟩
  · intro i
    by_cases hi : i < n
    · have hgi : fnAt g i = fnAt (g.take n ++ g.drop n) i := by rw [hg]
      have hmem : fnAt g i ∈ silly_sort n (g.take n) := by
        rw [hgi, fnAt_append_left _ _ _ (by omega), fnAt_eq_getElem _ _ (by omega)]
        exact hperm.symm.subset (List.getElem_mem _)
      obtain ⟨q, hq, he⟩ := List.mem_iff_getElem.mp hmem
      refine ⟨q, ?_, ?_⟩
      · rw [← he, hs, fnAt_append_left _ _ _ hq, fnAt_eq_getElem _ _ hq]
      · constructor
        · intro _; exact hi
        · intro _; omega
    · exact ⟨i, hright i (by omega), Iff.rfl⟩

/-! ## The invariant of the registry is kept -/

/-- The index loop over an array sorted by hash: every entry it writes is 0 or
an index below `i`, and a nonzero entry is written only for a hash greater
than that of the record at index 0. -/
theorem update_hash_table_index (k i p j hprev : Nat) (s : VmpuState) (H : Nat → Nat)
    (N : Nat) (hH : ∀ q, (fnAt s.g_fn q).hash = H q) (hp : p + 1 = i) (hj : j ≤ p)
    (hprev_eq : hprev = H (j - 1))
    (hsorted : ∀ a b, a ≤ b → b < i + k → H a ≤ H b)
    (hN : k = 0 ∨ i + k ≤ N)
    (hjpos : 0 < j → H 0 < hprev)
    (hrange : ∀ h, s.g_fn_hash.getD h 0 = 0 ∨ s.g_fn_hash.getD h 0 < N)
    (habove : ∀ h, s.g_fn_hash.getD h 0 ≠ 0 → H 0 < h) :
    (∀ h, (update_hash_table k i p j hprev s).g_fn_hash.getD h 0 = 0 ∨
        (update_hash_table k i p j hprev s).g_fn_hash.getD h 0 < N) ∧
      (∀ h, (update_hash_table k i p j hprev s).g_fn_hash.getD h 0 ≠ 0 → H 0 < h) := by
  induction k generalizing i p j hprev s with
  | zero => exact ⟨hrange, habove⟩
  | succ k ih =>
    have hlen : i + (k + 1) ≤ N := by omega
    rw [update_hash_table]
    by_cases hc : (fnAt s.g_fn p).hash = hprev
    · simp only [if_pos hc]
      refine ih (i + 1) (p + 1) j hprev _ ?_ (by omega) (by omega) hprev_eq
        (fun a b h1 h2 => hsorted a b h1 (by omega)) (Or.inr (by omega)) hjpos hrange habove
      intro q
      rw [← hH q]
      exact ((same_records_write s p 0 s.g_fn_hash rfl).2.2.2.2 q).1
    · simp only [if_neg hc]
      have hHp : (fnAt s.g_fn p).hash = H p := hH p
      have h1 : H (j - 1) ≤ H p := hsorted (j - 1) p (by omega) (by omega)
      have h0 : H 0 ≤ H (j - 1) := hsorted 0 (j - 1) (Nat.zero_le _) (by omega)
      have hlt : H 0 < H p := by
        rw [hHp, hprev_eq] at hc
        omega
      refine ih (i + 1) (p + 1) i (fnAt s.g_fn p).hash _ ?_ (by omega) (by omega) ?_
        (fun a b h1 h2 => hsorted a b h1 (by omega)) (Or.inr (by omega)) ?_ ?_ ?_
      · intro q
        rw [← hH q]
        exact ((same_records_write s j ((i - j) % 0x100) (s.g_fn_hash.set hprev (j % 0x100))
          (by simp)).2.2.2.2 q).1
      · rw [hHp]
        have : i - 1 = p := by omega
        rw [this]
      · intro _
        rw [hHp]; exact hlt
      · intro h
        show (s.g_fn_hash.set hprev (j % 0x100)).getD h 0 = 0 ∨
          (s.g_fn_hash.set hprev (j % 0x100)).getD h 0 < N
        rw [getD_set_nat]
        by_cases hh : hprev = h ∧ hprev < s.g_fn_hash.length
        · rw [if_pos hh]
          right
          have := Nat.mod_le j 0x100
          omega
        · rw [if_neg hh]; exact hrange h
      · intro h
        show (s.g_fn_hash.set hprev (j % 0x100)).getD h 0 ≠ 0 → H 0 < h
        rw [getD_set_nat]
        by_cases hh : hprev = h ∧ hprev < s.g_fn_hash.length
        · rw [if_pos hh]
          intro hne
          have hj0 : 0 < j := by
            rcases Nat.eq_zero_or_pos j with h0 | h0
            · rw [h0] at hne; exact absurd rfl hne
            · exact h0
          rw [← hh.1]
          exact hjpos hj0
        · rw [if_neg hh]; exact habove h

/-- The append loop keeps the invariant, whether it overflows or not. -/
theorem add_new_functions_inv (box_id k : Nat) (fn : List Nat) (s : VmpuState)
    (h : registry_inv s) : registry_inv (add_new_functions box_id k fn s).1 := by
  obtain ⟨hwf, hhash, hrange, habove⟩ := h
  obtain ⟨hl, hh, hc⟩ := hwf
  obtain ⟨_, h2, h3, h4, _⟩ := add_new_functions_spec box_id k fn s hc
  refine ⟨⟨by rw [h3, hl], by rw [h4, hh], by rw [h2]; omega⟩, ?_, ?_, ?_⟩
  · intro q
    rw [add_new_functions_records]
    split
    · rfl
    · exact hhash q
  · intro h
    rw [h4, h2]
    rcases hrange h with h0 | h0
    · exact Or.inl h0
    · right; omega
  · intro h hne
    rw [h4] at hne
    have hpos : 0 < s.g_fn_count := by
      rcases hrange h with h0 | h0
      · exact absurd h0 hne
      · omega
    rw [add_new_functions_records, if_neg (by omega)]
    exact habove h hne

/-- The state in which `vmpu_box_add_fn` leaves the registry when the append
loop did not overflow. -/
theorem vmpu_box_add_fn_success (s : VmpuState) (box_id : Nat) (fn : List Nat)
    (count : Nat) (h : ¬ (add_new_functions box_id count fn s).2 = true) :
    (vmpu_box_add_fn s box_id fn count).1 =
      update_hash_table ((add_new_functions box_id count fn s).1.g_fn_count - 1) 1 0 0
        (fnAt (silly_sort (add_new_functions box_id count fn s).1.g_fn_count
          (add_new_functions box_id count fn s).1.g_fn) 0).hash
        { (add_new_functions box_id count fn s).1 with
          g_fn := silly_sort (add_new_functions box_id count fn s).1.g_fn_count
            (add_new_functions box_id count fn s).1.g_fn } := by
  unfold vmpu_box_add_fn
  rw [if_neg h]

/-- Sorting the stored records and running the index loop keeps the invariant. -/
theorem sort_and_update_inv (r : VmpuState) (h : registry_inv r) :
    registry_inv (update_hash_table (r.g_fn_count - 1) 1 0 0
      (fnAt (silly_sort r.g_fn_count r.g_fn) 0).hash
      { r with g_fn := silly_sort r.g_fn_count r.g_fn }) := by
  obtain ⟨hwf, hhash, hrange, habove⟩ := h
  obtain ⟨hl, hh, hc⟩ := hwf
  have hn : r.g_fn_count ≤ r.g_fn.length := by rw [hl]; exact hc
  obtain ⟨hpos1, hpos2⟩ := silly_sort_positions r.g_fn_count r.g_fn hn
  have hsorted : ∀ a b, a ≤ b → b < 1 + (r.g_fn_count - 1) →
      (fnAt (silly_sort r.g_fn_count r.g_fn) a).hash
        ≤ (fnAt (silly_sort r.g_fn_count r.g_fn) b).hash := by
    intro a b hab hb
    by_cases hb0 : b = 0
    · have ha0 : a = 0 := by omega
      rw [ha0, hb0]
    · exact sorted_of_adjacent _ r.g_fn_count
        (fun q hq1 hq2 => silly_sort_adjacent _ _ hn q hq1 hq2) a b hab (by omega)
  have habove2 : ∀ h, r.g_fn_hash.getD h 0 ≠ 0 →
      (fnAt (silly_sort r.g_fn_count r.g_fn) 0).hash < h := by
    intro h hne
    have hpos : 0 < r.g_fn_count := by
      rcases hrange h with h0 | h0
      · exact absurd h0 hne
      · omega
    obtain ⟨q, hq, hiff⟩ := hpos2 0
    have hqn : q < r.g_fn_count := hiff.mpr hpos
    have hle := hsorted 0 q (Nat.zero_le _) (by omega)
    rw [hq] at hle
    have := habove h hne
    omega
  have hframe := update_hash_table_frame (r.g_fn_count - 1) 1 0 0
    (fnAt (silly_sort r.g_fn_count r.g_fn) 0).hash
    { r with g_fn := silly_sort r.g_fn_count r.g_fn }
  obtain ⟨hi1, hi2⟩ := update_hash_table_index (r.g_fn_count - 1) 1 0 0
    (fnAt (silly_sort r.g_fn_count r.g_fn) 0).hash
    { r with g_fn := silly_sort r.g_fn_count r.g_fn }
    (fun q => (fnAt (silly_sort r.g_fn_count r.g_fn) q).hash) r.g_fn_count
    (fun _ => rfl) rfl (Nat.le_refl 0) rfl hsorted (by omega)
    (fun h => absurd h (Nat.lt_irrefl 0)) hrange habove2
  obtain ⟨f1, _, f3, f4, f5⟩ := hframe
  refine ⟨⟨?_, ?_, ?_⟩, ?_, ?_, ?_⟩
  · rw [f3]; show (silly_sort r.g_fn_count r.g_fn).length = _
    rw [silly_sort_length _ _ hn, hl]
  · rw [f4]; exact hh
  · rw [f1]; exact hc
  · intro q
    rw [(f5 q).1, (f5 q).2.1]
    show (fnAt (silly_sort r.g_fn_count r.g_fn) q).hash
      = vmpu_hash_addr (fnAt (silly_sort r.g_fn_count r.g_fn) q).addr
    obtain ⟨i, hi, _⟩ := hpos1 q
    rw [hi]; exact hhash i
  · intro h
    rw [f1]; exact hi1 h
  · intro h hne
    rw [(f5 0).1]
    exact hi2 h hne

/-- The function `vmpu_box_add_fn` keeps the invariant, on success and on
overflow. -/
theorem vmpu_box_add_fn_inv (s : VmpuState) (box_id : Nat) (fn : List Nat) (count : Nat)
    (h : registry_inv s) : registry_inv (vmpu_box_add_fn s box_id fn count).1 := by
  have hr := add_new_functions_inv box_id count fn s h
  by_cases hov : (add_new_functions box_id count fn s).2 = true
  · rw [vmpu_box_add_fn_overflow s box_id fn count hov]
    exact hr
  · rw [vmpu_box_add_fn_success s box_id fn count hov]
    exact sort_and_update_inv _ hr

theorem getD_replicate_zero (n h : Nat) : (List.replicate n (0 : Nat)).getD h 0 = 0 := by
  induction n generalizing h with
  | zero => rfl
  | succ n ih =>
    cases h with
    | zero => rfl
    | succ h => exact ih h

theorem fnAt_replicate_zero (n q : Nat) :
    fnAt (List.replicate n TFnTable.zero) q = TFnTable.zero := by
  induction n generalizing q with
  | zero => rfl
  | succ n ih =>
    cases q with
    | zero => rfl
    | succ q => exact ih q

theorem init_inv : registry_inv VmpuState.init := by
  refine ⟨init_wf, fun q => ?_, fun h => Or.inl ?_, fun h hne => absurd ?_ hne⟩
  · have hz : fnAt VmpuState.init.g_fn q = TFnTable.zero := fnAt_replicate_zero _ q
    rw [hz]; decide
  · exact getD_replicate_zero _ h
  · exact getD_replicate_zero _ h

/-- Every state reached from the zeroed state by calls of `vmpu_box_add_fn`
satisfies the invariant. -/
theorem run_box_add_fn_inv (calls : List (Nat × List Nat)) (s : VmpuState)
    (h : registry_inv s) : registry_inv (run_box_add_fn s calls) := by
  induction calls generalizing s with
  | nil => exact h
  | cons c cs ih =>
    rw [run_box_add_fn]
    exact ih _ (vmpu_box_add_fn_inv s c.1 c.2 c.2.length h)

/-! ## Further claims on the box function registry -/

/-- The overflow error is returned exactly when the append loop was left early. -/
theorem vmpu_box_add_fn_overflow_flag (s : VmpuState) (box_id : Nat) (fn : List Nat)
    (count : Nat) (hc : s.g_fn_count ≤ MPU_MAX_PRIVATE_FUNCTIONS)
    (h : (vmpu_box_add_fn s box_id fn count).2 = -1) :
    (add_new_functions box_id count fn s).2 = true :=
  (add_new_functions_spec box_id count fn s hc).1.mpr
    ((vmpu_box_add_fn_result s box_id fn count hc).1.mp h)

/-- C11: a call that overflows (`n + c > 16`, the batch holding `c` addresses
of 32 bits) returns -1 with `g_fn_count = 16`, and for every `k` with
`n + k < 16` the record at position `n + k` holds the `k`-th address of the
batch, its hash and the given `box_id`. -/
theorem vmpu_box_add_fn_overflow_partial (s : VmpuState) (box_id : Nat) (fn : List Nat)
    (hwf : s.wf) (h32 : ∀ a ∈ fn, a < 2 ^ 32)
    (hov : MPU_MAX_PRIVATE_FUNCTIONS < s.g_fn_count + fn.length) :
    (vmpu_box_add_fn s box_id fn fn.length).2 = -1 ∧
      (vmpu_box_add_fn s box_id fn fn.length).1.g_fn_count = 16 ∧
      ∀ k, s.g_fn_count + k < 16 →
        ∃ a, fn[k]? = some a ∧
          (fnAt (vmpu_box_add_fn s box_id fn fn.length).1.g_fn (s.g_fn_count + k)).addr = a ∧
          (fnAt (vmpu_box_add_fn s box_id fn fn.length).1.g_fn (s.g_fn_count + k)).hash
            = vmpu_hash_addr a ∧
          (fnAt (vmpu_box_add_fn s box_id fn fn.length).1.g_fn (s.g_fn_count + k)).box_id
            = box_id := by
  obtain ⟨hl, _, hc⟩ := hwf
  have hM : MPU_MAX_PRIVATE_FUNCTIONS = 16 := rfl
  obtain ⟨h1, _, h3⟩ := vmpu_box_add_fn_result s box_id fn fn.length hc
  have hflag := (add_new_functions_spec box_id fn.length fn s hc).1.mpr hov
  refine ⟨h1.mpr hov, by rw [h3]; omega, fun k hk => ?_⟩
  have hkl : k < fn.length := by omega
  have hget : fn.getD k 0 = fn[k] := by
    rw [List.getD_eq_getElem?_getD, List.getElem?_eq_getElem hkl]; rfl
  have hmod : fn[k] % 2 ^ 32 = fn[k] := Nat.mod_eq_of_lt (h32 _ (List.getElem_mem _))
  refine ⟨fn[k], List.getElem?_eq_getElem hkl, ?_⟩
  rw [vmpu_box_add_fn_overflow s box_id fn fn.length hflag]
  show (fnAt (add_new_functions box_id fn.length fn s).1.g_fn (s.g_fn_count + k)).addr = _ ∧
    (fnAt (add_new_functions box_id fn.length fn s).1.g_fn (s.g_fn_count + k)).hash = _ ∧
    (fnAt (add_new_functions box_id fn.length fn s).1.g_fn (s.g_fn_count + k)).box_id = _
  rw [add_new_functions_records,
    if_pos ⟨by omega, by omega, by omega, by omega⟩, Nat.add_sub_cancel_left, hget, hmod]
  exact ⟨rfl, rfl, rfl⟩

theorem vmpu_box_add_fn_overflow_partial_witness :
    (vmpu_box_add_fn (run_box_add_fn VmpuState.init [(1, [1, 2, 3, 4, 5, 6, 7, 8, 9, 10])]) 2
        [20, 19, 18, 17, 16, 15, 14, 13, 12, 11] 10).1.g_fn_count = 16 ∧
      ((vmpu_box_add_fn (run_box_add_fn VmpuState.init [(1, [1, 2, 3, 4, 5, 6, 7, 8, 9, 10])]) 2
        [20, 19, 18, 17, 16, 15, 14, 13, 12, 11] 10).1.g_fn.drop 10).map
          (fun r => (r.addr, r.hash, r.box_id))
        = [(20, 20, 2), (19, 19, 2), (18, 18, 2), (17, 17, 2), (16, 16, 2), (15, 15, 2)] := by
  have h := vmpu_box_add_fn_overflow_partial
    (run_box_add_fn VmpuState.init [(1, [1, 2, 3, 4, 5, 6, 7, 8, 9, 10])]) 2
    [20, 19, 18, 17, 16, 15, 14, 13, 12, 11] (run_box_add_fn_wf _ _ init_wf) (by decide)
    (by decide)
  exact ⟨h.2.1, by decide⟩

/-- C12: for a 32-bit `d` the value of `vmpu_hash_addr d` is the exclusive-or
of the four bytes of `d`, an 8-bit value; and in every state reached from the
zeroed state by calls of `vmpu_box_add_fn` the `hash` field of every stored
record is `vmpu_hash_addr` of its `addr` field. -/
theorem vmpu_hash_addr_bytes :
    (∀ d, d < 2 ^ 32 →
        vmpu_hash_addr d
          = (d >>> 24) ^^^ ((d >>> 16) &&& 0xFF) ^^^ ((d >>> 8) &&& 0xFF) ^^^ (d &&& 0xFF) ∧
        vmpu_hash_addr d < 0x100) ∧
      ∀ calls i, i < (run_box_add_fn VmpuState.init calls).g_fn_count →
        (fnAt (run_box_add_fn VmpuState.init calls).g_fn i).hash
          = vmpu_hash_addr (fnAt (run_box_add_fn VmpuState.init calls).g_fn i).addr := by
  constructor
  · intro d hd
    constructor
    · have h256 : (0x100 : Nat) = 2 ^ 8 := rfl
      have hff : (0xFF : Nat) = 2 ^ 8 - 1 := rfl
      unfold vmpu_hash_addr
      rw [h256, hff]
      apply Nat.eq_of_testBit_eq
      intro i
      simp only [Nat.testBit_mod_two_pow, Nat.testBit_xor, Nat.testBit_and,
        Nat.testBit_shiftRight, Nat.testBit_two_pow_sub_one]
      by_cases hi : i < 8
      · simp [hi]
      · have hbig : d.testBit (24 + i) = false :=
          Nat.testBit_lt_two_pow (Nat.lt_of_lt_of_le hd
            (Nat.pow_le_pow_right (by decide) (by omega)))
        simp [hi, hbig]
    · exact Nat.mod_lt _ (by decide)
  · intro calls i _
    exact (run_box_add_fn_inv calls _ init_inv).2.1 i

/-- C13: box 1 registers the addresses 1 to 10 (the call returns 10), then the
call of box 2 with the addresses 11 to 20 returns -1.  Afterwards
`vmpu_fn_box` returns -1 for the addresses 1, 9 and 10 and 0 for the addresses
2 to 8: no address of box 1 is resolved to box 1. -/
theorem lookup_after_overflow_unresolved :
    (vmpu_box_add_fn VmpuState.init 1 [1, 2, 3, 4, 5, 6, 7, 8, 9, 10] 10).2 = 10 ∧
      (vmpu_box_add_fn (run_box_add_fn VmpuState.init [(1, [1, 2, 3, 4, 5, 6, 7, 8, 9, 10])])
        2 [11, 12, 13, 14, 15, 16, 17, 18, 19, 20] 10).2 = -1 ∧
      [1, 2, 3, 4, 5, 6, 7, 8, 9, 10].map
          (vmpu_fn_box (run_box_add_fn VmpuState.init
            [(1, [1, 2, 3, 4, 5, 6, 7, 8, 9, 10]),
              (2, [11, 12, 13, 14, 15, 16, 17, 18, 19, 20])]))
        = [-1, 0, 0, 0, 0, 0, 0, 0, -1, -1] := by
  decide

/-- The value of the scan is 0 or the `box_id` of the record, which then has
the address looked for. -/
theorem vmpu_fn_box_scan_result (p : TFnTable) (addr c : Nat) :
    vmpu_fn_box_scan p addr c = 0 ∨
      (p.addr = addr ∧ vmpu_fn_box_scan p addr c = (p.box_id : Int)) := by
  induction c with
  | zero => exact Or.inl rfl
  | succ c ih =>
    rw [vmpu_fn_box_scan]
    by_cases h : p.addr = addr
    · rw [if_pos h]; exact Or.inr ⟨h, rfl⟩
    · rw [if_neg h]; exact ih

/-- A positive result of `vmpu_fn_box` is the `box_id` of the record at the
nonzero index found in `g_fn_hash`, and that record has the address. -/
theorem vmpu_fn_box_positive (s : VmpuState) (a : Nat) (h : 0 < vmpu_fn_box s a) :
    s.g_fn_hash.getD (vmpu_hash_addr a) 0 ≠ 0 ∧
      (fnAt s.g_fn (s.g_fn_hash.getD (vmpu_hash_addr a) 0)).addr = a ∧
      ((fnAt s.g_fn (s.g_fn_hash.getD (vmpu_hash_addr a) 0)).box_id : Int)
        = vmpu_fn_box s a := by
  unfold vmpu_fn_box at h ⊢
  dsimp only at h ⊢
  by_cases h0 : s.g_fn_hash.getD (vmpu_hash_addr a) 0 = 0
  · rw [if_pos h0] at h
    exact absurd h (by decide)
  · rw [if_neg h0] at h ⊢
    by_cases ha : (fnAt s.g_fn (s.g_fn_hash.getD (vmpu_hash_addr a) 0)).addr = a
    · rw [if_pos ha]
      exact ⟨h0, ha, rfl⟩
    · rw [if_neg ha] at h ⊢
      rcases vmpu_fn_box_scan_result (fnAt s.g_fn (s.g_fn_hash.getD (vmpu_hash_addr a) 0)) a
        (((fnAt s.g_fn (s.g_fn_hash.getD (vmpu_hash_addr a) 0)).count + 0xFF) % 0x100)
        with hz | ⟨hp, _⟩
      · rw [hz] at h
        exact absurd h (by decide)
      · exact absurd hp ha

/-- A call of `vmpu_box_add_fn` keeps a property of the stored addresses that
the addresses of the batch have. -/
theorem vmpu_box_add_fn_stored_addrs (P : Nat → Prop) (s : VmpuState) (box_id : Nat)
    (fn : List Nat) (count : Nat) (hwf : s.wf) (hold : stored_addrs P s)
    (hnew : ∀ m, m < count → P (fn.getD m 0 % 2 ^ 32)) :
    stored_addrs P (vmpu_box_add_fn s box_id fn count).1 := by
  obtain ⟨hl, hh, hc⟩ := hwf
  obtain ⟨_, h2, h3, _, _⟩ := add_new_functions_spec box_id count fn s hc
  have hr : stored_addrs P (add_new_functions box_id count fn s).1 := by
    intro q hq
    rw [add_new_functions_records]
    rw [h2] at hq
    by_cases hin : s.g_fn_count ≤ q ∧ q < s.g_fn_count + count ∧
        q < MPU_MAX_PRIVATE_FUNCTIONS ∧ q < s.g_fn.length
    · rw [if_pos hin]
      exact hnew _ (by omega)
    · rw [if_neg hin]
      exact hold q (by omega)
  by_cases hov : (add_new_functions box_id count fn s).2 = true
  · rw [vmpu_box_add_fn_overflow s box_id fn count hov]
    exact hr
  · rw [vmpu_box_add_fn_success s box_id fn count hov]
    have hn : (add_new_functions box_id count fn s).1.g_fn_count
        ≤ (add_new_functions box_id count fn s).1.g_fn.length := by
      rw [h2, h3, hl]; omega
    obtain ⟨f1, _, _, _, f5⟩ := update_hash_table_frame
      ((add_new_functions box_id count fn s).1.g_fn_count - 1) 1 0 0
      (fnAt (silly_sort (add_new_functions box_id count fn s).1.g_fn_count
        (add_new_functions box_id count fn s).1.g_fn) 0).hash
      { (add_new_functions box_id count fn s).1 with
        g_fn := silly_sort (add_new_functions box_id count fn s).1.g_fn_count
          (add_new_functions box_id count fn s).1.g_fn }
    intro q hq
    rw [f1] at hq
    rw [(f5 q).2.1]
    obtain ⟨i, hi, hiff⟩ := (silly_sort_positions _ _ hn).1 q
    show P (fnAt (silly_sort (add_new_functions box_id count fn s).1.g_fn_count
        (add_new_functions box_id count fn s).1.g_fn) q).addr
    rw [hi]
    exact hr i (hiff.mp hq)

/-- Every stored record of a state reached from `s` holds an address that was
stored in `s` or belongs to a batch of the calls. -/
theorem run_box_add_fn_stored_addrs (P : Nat → Prop) (calls : List (Nat × List Nat))
    (s : VmpuState) (hwf : s.wf) (hold : stored_addrs P s)
    (hnew : ∀ c ∈ calls, ∀ a ∈ c.2, P (a % 2 ^ 32)) :
    stored_addrs P (run_box_add_fn s calls) := by
  induction calls generalizing s with
  | nil => exact hold
  | cons c cs ih =>
    rw [run_box_add_fn]
    refine ih _ (vmpu_box_add_fn_wf s c.1 c.2 c.2.length hwf) ?_
      (fun d hd => hnew d (List.mem_cons_of_mem _ hd))
    refine vmpu_box_add_fn_stored_addrs P s c.1 c.2 c.2.length hwf hold (fun m hm => ?_)
    have hget : c.2.getD m 0 = c.2[m] := by
      rw [List.getD_eq_getElem?_getD, List.getElem?_eq_getElem hm]; rfl
    rw [hget]
    exact hnew c (List.mem_cons_self _ _) _ (List.getElem_mem _)

/-- C14: in a state reached from the zeroed state by calls of
`vmpu_box_add_fn`, a result `b > 0` of `vmpu_fn_box a` is the `box_id` of a
stored record with address `a`, and `a` is an address of one of the batches:
an address that was in no batch is never resolved to a box. -/
theorem vmpu_fn_box_sound (calls : List (Nat × List Nat)) (a : Nat) (b : Int)
    (hb : 0 < b) (h : vmpu_fn_box (run_box_add_fn VmpuState.init calls) a = b) :
    (∃ i, i < (run_box_add_fn VmpuState.init calls).g_fn_count ∧
        (fnAt (run_box_add_fn VmpuState.init calls).g_fn i).addr = a ∧
        ((fnAt (run_box_add_fn VmpuState.init calls).g_fn i).box_id : Int) = b) ∧
      registered calls a := by
  obtain ⟨hwf, _, hrange, _⟩ := run_box_add_fn_inv calls _ init_inv
  rw [← h] at hb
  obtain ⟨h0, ha, hbox⟩ := vmpu_fn_box_positive _ a hb
  have hlt : (run_box_add_fn VmpuState.init calls).g_fn_hash.getD (vmpu_hash_addr a) 0
      < (run_box_add_fn VmpuState.init calls).g_fn_count := by
    rcases hrange (vmpu_hash_addr a) with hz | hz
    · exact absurd hz h0
    · exact hz
  have hreg := run_box_add_fn_stored_addrs (registered calls) calls VmpuState.init init_wf
    (fun q hq => absurd hq (Nat.not_lt_zero q)) (fun c hc x hx => ⟨c, hc, x, hx, rfl⟩) _ hlt
  rw [ha] at hreg
  exact ⟨⟨_, hlt, ha, hbox.trans h⟩, hreg⟩

theorem vmpu_fn_box_sound_witness :
    (0 : Int) < 1 ∧
      vmpu_fn_box (run_box_add_fn VmpuState.init [(1, [1, 2, 0x200, 0x20000, 3, 0x300])])
        0x200 = 1 ∧
      (∃ i, i < (run_box_add_fn VmpuState.init
            [(1, [1, 2, 0x200, 0x20000, 3, 0x300])]).g_fn_count ∧
        (fnAt (run_box_add_fn VmpuState.init
            [(1, [1, 2, 0x200, 0x20000, 3, 0x300])]).g_fn i).addr = 0x200 ∧
        ((fnAt (run_box_add_fn VmpuState.init
            [(1, [1, 2, 0x200, 0x20000, 3, 0x300])]).g_fn i).box_id : Int) = 1) ∧
      registered [(1, [1, 2, 0x200, 0x20000, 3, 0x300])] 0x200 := by
  have h := vmpu_fn_box_sound [(1, [1, 2, 0x200, 0x20000, 3, 0x300])] 0x200 1
    (by decide) (by decide)
  exact ⟨by decide, by decide, h.1, h.2⟩

/-- C17: in a state reached from the zeroed state by calls of
`vmpu_box_add_fn` that stores at least one record, `vmpu_fn_box` of the address
of the record at index 0 returns -1. -/
theorem vmpu_fn_box_first_record (calls : List (Nat × List Nat))
    (_hstored : 0 < (run_box_add_fn VmpuState.init calls).g_fn_count) :
    vmpu_fn_box (run_box_add_fn VmpuState.init calls)
      (fnAt (run_box_add_fn VmpuState.init calls).g_fn 0).addr = -1 := by
  obtain ⟨_, hhash, _, habove⟩ := run_box_add_fn_inv calls _ init_inv
  have hz : (run_box_add_fn VmpuState.init calls).g_fn_hash.getD
      (vmpu_hash_addr (fnAt (run_box_add_fn VmpuState.init calls).g_fn 0).addr) 0 = 0 := by
    by_contra hne
    have := habove _ hne
    rw [← hhash 0] at this
    exact Nat.lt_irrefl _ this
  unfold vmpu_fn_box
  dsimp only
  rw [if_pos hz]

theorem vmpu_fn_box_first_record_witness :
    0 < (run_box_add_fn VmpuState.init
        [(1, [9, 7, 5]), (2, [8, 6, 4, 2]), (3, [0x300, 0x30000, 3, 1])]).g_fn_count ∧
      vmpu_fn_box (run_box_add_fn VmpuState.init
          [(1, [9, 7, 5]), (2, [8, 6, 4, 2]), (3, [0x300, 0x30000, 3, 1])])
        (fnAt (run_box_add_fn VmpuState.init
          [(1, [9, 7, 5]), (2, [8, 6, 4, 2]), (3, [0x300, 0x30000, 3, 1])]).g_fn 0).addr = -1 :=
  ⟨by decide, vmpu_fn_box_first_record
    [(1, [9, 7, 5]), (2, [8, 6, 4, 2]), (3, [0x300, 0x30000, 3, 1])] (by decide)⟩

/-- C20: in a state reached from the zeroed state by calls of
`vmpu_box_add_fn`, a call that returns the overflow error leaves the records
`g_fn[0 .. n)` and the array `g_fn_hash` as they were, and `vmpu_fn_box`
returns for every address what it returned before the call. -/
theorem vmpu_box_add_fn_overflow_frame (calls : List (Nat × List Nat)) (box_id : Nat)
    (fn : List Nat) (count : Nat)
    (hov : (vmpu_box_add_fn (run_box_add_fn VmpuState.init calls) box_id fn count).2 = -1) :
    (∀ q, q < (run_box_add_fn VmpuState.init calls).g_fn_count →
        fnAt (vmpu_box_add_fn (run_box_add_fn VmpuState.init calls) box_id fn count).1.g_fn q
          = fnAt (run_box_add_fn VmpuState.init calls).g_fn q) ∧
      (vmpu_box_add_fn (run_box_add_fn VmpuState.init calls) box_id fn count).1.g_fn_hash
        = (run_box_add_fn VmpuState.init calls).g_fn_hash ∧
      ∀ a, vmpu_fn_box (vmpu_box_add_fn (run_box_add_fn VmpuState.init calls)
            box_id fn count).1 a
          = vmpu_fn_box (run_box_add_fn VmpuState.init calls) a := by
  obtain ⟨hwf, _, hrange, _⟩ := run_box_add_fn_inv calls _ init_inv
  have hflag := vmpu_box_add_fn_overflow_flag _ box_id fn count hwf.2.2 hov
  rw [vmpu_box_add_fn_overflow _ box_id fn count hflag]
  have hrec : ∀ q, q < (run_box_add_fn VmpuState.init calls).g_fn_count →
      fnAt (add_new_functions box_id count fn (run_box_add_fn VmpuState.init calls)).1.g_fn q
        = fnAt (run_box_add_fn VmpuState.init calls).g_fn q := by
    intro q hq
    rw [add_new_functions_records, if_neg (by omega)]
  have hgh := (add_new_functions_spec box_id count fn _ hwf.2.2).2.2.2.1
  refine ⟨hrec, hgh, fun a => ?_⟩
  unfold vmpu_fn_box
  dsimp only
  rw [hgh]
  rcases hrange (vmpu_hash_addr a) with hz | hz
  · rw [if_pos hz, if_pos hz]
  · rw [hrec _ hz]

theorem vmpu_box_add_fn_overflow_frame_witness :
    (vmpu_box_add_fn (run_box_add_fn VmpuState.init [(1, [1, 2, 0x200, 0x20000, 3, 0x300])])
        2 [20, 19, 18, 17, 16, 15, 14, 13, 12, 11, 10] 11).2 = -1 ∧
      vmpu_fn_box (vmpu_box_add_fn
          (run_box_add_fn VmpuState.init [(1, [1, 2, 0x200, 0x20000, 3, 0x300])])
          2 [20, 19, 18, 17, 16, 15, 14, 13, 12, 11, 10] 11).1 0x200
        = vmpu_fn_box (run_box_add_fn VmpuState.init [(1, [1, 2, 0x200, 0x20000, 3, 0x300])])
          0x200 :=
  ⟨by decide, (vmpu_box_add_fn_overflow_frame [(1, [1, 2, 0x200, 0x20000, 3, 0x300])] 2
    [20, 19, 18, 17, 16, 15, 14, 13, 12, 11, 10] 11 (by decide)).2.2 0x200⟩

/-! ## The sort phase as a whole -/

/-- C18: for every content `a` of the stored records `g_fn[0 .. g_fn_count)`
and every rest `b` of the array, the sort loop terminates (every bound above
the number of inversions makes it return, always with the same array); it
leaves the rest alone and replaces `a` by a permutation of `a` that is sorted
by hash ascending and in which, for every hash value, the records of that hash
are in their former order; and if `a` is already sorted the array is
unchanged. -/
theorem silly_sort_stable_sorted (a b : List TFnTable) :
    (∀ fuel, inversions (a ++ b) < fuel →
        silly_sort_fuel a.length fuel (a ++ b) = some (silly_sort a.length (a ++ b))) ∧
      (∃ r, silly_sort a.length (a ++ b) = r ++ b ∧ r.Perm a ∧
        r.Pairwise (fun x y => x.hash ≤ y.hash) ∧
        ∀ h, r.filter (fun x => decide (x.hash = h)) = a.filter (fun x => decide (x.hash = h))) ∧
      (a.Pairwise (fun x y => x.hash ≤ y.hash) → silly_sort a.length (a ++ b) = a ++ b) := by
  have hlen : a.length ≤ (a ++ b).length := by rw [List.length_append]; omega
  refine ⟨fun fuel hf => silly_sort_fuel_enough _ fuel _ hlen hf, ?_, fun hs => ?_⟩
  · obtain ⟨hperm, hstable⟩ := silly_sort_perm a.length a (Nat.le_refl _)
    have hl := silly_sort_length a.length a (Nat.le_refl _)
    refine ⟨silly_sort a.length a, silly_sort_append _ a b (Nat.le_refl _), hperm, ?_, hstable⟩
    rw [List.pairwise_iff_getElem]
    intro i j hi hj hij
    have h := sorted_of_adjacent (silly_sort a.length a) a.length
      (fun q hq1 hq2 => silly_sort_adjacent _ _ (Nat.le_refl _) q hq1 hq2) i j
      (Nat.le_of_lt hij) (by omega)
    rw [fnAt_eq_getElem _ _ hi, fnAt_eq_getElem _ _ hj] at h
    exact h
  · rw [List.pairwise_iff_getElem] at hs
    have hpass : sort_pass (a.length - 1) 1 (a ++ b) false = (a ++ b, false) := by
      apply sort_pass_sorted
      intro j h1 h2
      have hj : j < a.length := by omega
      have hj1 : j - 1 < a.length := by omega
      rw [fnAt_append_left _ _ _ hj, fnAt_append_left _ _ _ hj1,
        fnAt_eq_getElem _ _ hj, fnAt_eq_getElem _ _ hj1]
      exact hs (j - 1) j hj1 hj (by omega)
    have hone : silly_sort_fuel a.length (inversions (a ++ b) + 1) (a ++ b)
        = some (a ++ b) := by
      rw [silly_sort_fuel, hpass]
      rfl
    have henough := silly_sort_fuel_enough a.length (inversions (a ++ b) + 1) (a ++ b) hlen
      (by omega)
    rw [hone] at henough
    exact (Option.some.inj henough).symm

/-! ## Array bounds -/

theorem add_new_functions_writes_lt (box_id k : Nat) (fn : List Nat) (s : VmpuState) :
    ∀ x ∈ add_new_functions_writes box_id k fn s, x < MPU_MAX_PRIVATE_FUNCTIONS := by
  induction k generalizing fn s with
  | zero => intro x hx; cases hx
  | succ k ih =>
    intro x hx
    rw [add_new_functions_writes] at hx
    by_cases hc : s.g_fn_count ≥ MPU_MAX_PRIVATE_FUNCTIONS
    · rw [if_pos hc] at hx; cases hx
    · rw [if_neg hc] at hx
      rcases List.mem_cons.mp hx with h | h
      · rw [h]; omega
      · exact ih _ _ x h

theorem sort_pass_accesses_lt (k i : Nat) :
    ∀ x ∈ sort_pass_accesses k i, x < i + k := by
  induction k generalizing i with
  | zero => intro x hx; cases hx
  | succ k ih =>
    intro x hx
    rw [sort_pass_accesses] at hx
    rcases List.mem_cons.mp hx with h | h
    · omega
    · rcases List.mem_cons.mp h with h | h
      · omega
      · have := ih (i + 1) x h
        omega

theorem update_hash_table_accesses_lt (k i p j hprev : Nat) (s : VmpuState) (hp : p < i)
    (hj : j < i) : ∀ x ∈ update_hash_table_accesses k i p j hprev s, x < i + k := by
  induction k generalizing i p j hprev s with
  | zero => intro x hx; cases hx
  | succ k ih =>
    intro x hx
    rw [update_hash_table_accesses] at hx
    by_cases hc : (fnAt s.g_fn p).hash = hprev
    · rw [if_pos hc] at hx
      rcases List.mem_cons.mp hx with h | h
      · omega
      · have := ih (i + 1) (p + 1) j hprev _ (by omega) (by omega) x h
        omega
    · rw [if_neg hc] at hx
      rcases List.mem_cons.mp hx with h | h
      · omega
      · rcases List.mem_cons.mp h with h | h
        · omega
        · have := ih (i + 1) (p + 1) i _ _ (by omega) (by omega) x h
          omega

/-- Every index of `g_fn` that a call of `vmpu_box_add_fn` uses is below the
size of the array. -/
theorem vmpu_box_add_fn_accesses_lt (s : VmpuState) (box_id : Nat) (fn : List Nat)
    (count : Nat) (hwf : s.wf) :
    ∀ x ∈ vmpu_box_add_fn_accesses s box_id fn count, x < s.g_fn.length := by
  obtain ⟨hl, _, hc⟩ := hwf
  obtain ⟨_, h2, _, _, _⟩ := add_new_functions_spec box_id count fn s hc
  have hM : MPU_MAX_PRIVATE_FUNCTIONS = 16 := rfl
  intro x hx
  unfold vmpu_box_add_fn_accesses at hx
  dsimp only at hx
  rcases List.mem_append.mp hx with h | h
  · have := add_new_functions_writes_lt box_id count fn s x h
    omega
  · by_cases hov : (add_new_functions box_id count fn s).2 = true
    · rw [if_pos hov] at h; cases h
    · rw [if_neg hov] at h
      rcases List.mem_append.mp h with h | h
      · have := sort_pass_accesses_lt _ _ x h
        omega
      · rcases List.mem_cons.mp h with h | h
        · omega
        · have := update_hash_table_accesses_lt _ 1 0 0 _ _ (by omega) (by omega) x h
          omega

/-- C19: every state reached from the zeroed state by calls of
`vmpu_box_add_fn` has `g_fn_count ≤ 16` and every entry of `g_fn_hash` equal
to 0 or below `g_fn_count`; hence every index of `g_fn` that a further call of
`vmpu_box_add_fn` uses, and the index `g_fn_hash[hash]` at which `vmpu_fn_box`
reads a record, are below the size 16 of `g_fn`. -/
theorem registry_bounds (calls : List (Nat × List Nat)) :
    (run_box_add_fn VmpuState.init calls).g_fn_count ≤ MPU_MAX_PRIVATE_FUNCTIONS ∧
      MPU_MAX_PRIVATE_FUNCTIONS = 16 ∧
      (run_box_add_fn VmpuState.init calls).g_fn.length = 16 ∧
      (∀ h, (run_box_add_fn VmpuState.init calls).g_fn_hash.getD h 0 = 0 ∨
        (run_box_add_fn VmpuState.init calls).g_fn_hash.getD h 0
          < (run_box_add_fn VmpuState.init calls).g_fn_count) ∧
      (∀ box_id fn count,
        ∀ x ∈ vmpu_box_add_fn_accesses (run_box_add_fn VmpuState.init calls) box_id fn count,
          x < (run_box_add_fn VmpuState.init calls).g_fn.length) ∧
      ∀ a, (run_box_add_fn VmpuState.init calls).g_fn_hash.getD (vmpu_hash_addr a) 0
        < (run_box_add_fn VmpuState.init calls).g_fn.length := by
  obtain ⟨hwf, _, hrange, _⟩ := run_box_add_fn_inv calls _ init_inv
  have hM : MPU_MAX_PRIVATE_FUNCTIONS = 16 := rfl
  refine ⟨hwf.2.2, rfl, hwf.1, hrange, fun box_id fn count =>
    vmpu_box_add_fn_accesses_lt _ box_id fn count hwf, fun a => ?_⟩
  have h1 := hwf.1
  have h2 := hwf.2.2
  rcases hrange (vmpu_hash_addr a) with hz | hz
  · rw [hz]; omega
  · omega

/-! ## Further claims on the trap router -/

/-- C15: on both paths the dispatch decision is the function
`spec_dispatch_decision` of the 8-bit operand, so it is the same for a
privileged and an unprivileged caller; and the privileged transfer is the
unprivileged one with the table `jump_table_priv` and the stack pointer `msp`
in place of `jump_table_unpriv` and `psp`. -/
theorem svc_dispatch_same_decision (x : SvcExports) (c : TrapContext) :
    (called_from_priv x c).decision = spec_dispatch_decision x (c.imm % 0x100) ∧
      (called_from_unpriv x c).decision = spec_dispatch_decision x (c.imm % 0x100) ∧
      (SVCall_IRQn_Handler x c).decision = spec_dispatch_decision x (c.imm % 0x100) ∧
      called_from_priv x c =
        (match called_from_unpriv x c with
          | SvcTransfer.hook r1 r2 => SvcTransfer.hook r1 r2
          | SvcTransfer.jump _ i _ _ r1 r2 =>
            SvcTransfer.jump true i jump_table_priv[i]? c.msp r1 r2
          | SvcTransfer.call _ i t a0 a1 a2 a3 => SvcTransfer.call true i t a0 a1 a2 a3
          | SvcTransfer.discard => SvcTransfer.discard) ∧
      called_from_unpriv x c =
        (match called_from_priv x c with
          | SvcTransfer.hook r1 r2 => SvcTransfer.hook r1 r2
          | SvcTransfer.jump _ i _ _ r1 r2 =>
            SvcTransfer.jump false i jump_table_unpriv[i]? c.psp r1 r2
          | SvcTransfer.call _ i t a0 a1 a2 a3 => SvcTransfer.call false i t a0 a1 a2 a3
          | SvcTransfer.discard => SvcTransfer.discard) := by
  have hlen : g_svc_vtor_tbl.length = 24 := by decide
  have hp : (called_from_priv x c).decision = spec_dispatch_decision x (c.imm % 0x100) := by
    unfold called_from_priv spec_dispatch_decision custom_table_priv
    dsimp only
    by_cases h0 : c.imm % 0x100 = 0
    · rw [if_pos h0, if_pos h0]; rfl
    · rw [if_neg h0, if_neg h0]
      by_cases hm : c.imm % 0x100 &&& (x.UVISOR_SVC_MODE_MASK &&& 0xFF) = 0
      · have hnn : ¬ (c.imm % 0x100 &&& (x.UVISOR_SVC_MODE_MASK &&& 0xFF) ≠ 0) := fun h => h hm
        rw [if_pos hm, if_neg hnn, svc_vtor_tbl_count_eq, hlen]
        by_cases hle : c.imm % 0x100 ≤ 23
        · rw [if_pos hle, if_pos (by omega)]; rfl
        · rw [if_neg hle, if_neg (by omega)]; rfl
      · rw [if_neg hm, if_pos hm]; rfl
  have hu : (called_from_unpriv x c).decision = spec_dispatch_decision x (c.imm % 0x100) := by
    unfold called_from_unpriv spec_dispatch_decision custom_table_unpriv
    dsimp only
    by_cases h0 : c.imm % 0x100 = 0
    · rw [if_pos h0, if_pos h0]; rfl
    · rw [if_neg h0, if_neg h0]
      by_cases hm : c.imm % 0x100 &&& (x.UVISOR_SVC_MODE_MASK &&& 0xFF) = 0
      · have hnn : ¬ (c.imm % 0x100 &&& (x.UVISOR_SVC_MODE_MASK &&& 0xFF) ≠ 0) := fun h => h hm
        rw [if_pos hm, if_neg hnn, svc_vtor_tbl_count_eq, hlen]
        by_cases hle : c.imm % 0x100 ≤ 23
        · rw [if_pos hle, if_pos (by omega)]; rfl
        · rw [if_neg hle, if_neg (by omega)]; rfl
      · rw [if_neg hm, if_pos hm]; rfl
  refine ⟨hp, hu, ?_, ?_, ?_⟩
  · unfold SVCall_IRQn_Handler
    split
    · exact hp
    · exact hu
  · unfold called_from_priv called_from_unpriv custom_table_priv custom_table_unpriv
    dsimp only
    by_cases h0 : c.imm % 0x100 = 0
    · rw [if_pos h0, if_pos h0]
    · rw [if_neg h0, if_neg h0]
      by_cases hm : c.imm % 0x100 &&& (x.UVISOR_SVC_MODE_MASK &&& 0xFF) = 0
      · rw [if_pos hm, if_pos hm]
        by_cases hle : c.imm % 0x100 ≤ svc_vtor_tbl_count
        · rw [if_pos hle, if_pos hle]
        · rw [if_neg hle, if_neg hle]
      · rw [if_neg hm, if_neg hm]
  · unfold called_from_priv called_from_unpriv custom_table_priv custom_table_unpriv
    dsimp only
    by_cases h0 : c.imm % 0x100 = 0
    · rw [if_pos h0, if_pos h0]
    · rw [if_neg h0, if_neg h0]
      by_cases hm : c.imm % 0x100 &&& (x.UVISOR_SVC_MODE_MASK &&& 0xFF) = 0
      · rw [if_pos hm, if_pos hm]
        by_cases hle : c.imm % 0x100 ≤ svc_vtor_tbl_count
        · rw [if_pos hle, if_pos hle]
        · rw [if_neg hle, if_neg hle]
      · rw [if_neg hm, if_neg hm]

/-! ## The fault handlers never return -/

theorem fault_step_before_end (pc : FaultPc) (h : pc.before_end) :
    ∃ pc2, fault_step pc = Machine.in_fault pc2 ∧ pc2.before_end := by
  cases pc with
  | handler_dprintf hd => exact ⟨_, rfl, trivial⟩
  | handler_call hd => exact ⟨_, rfl, trivial⟩
  | handler_end hd => exact absurd h id
  | fault_cesr hd => exact ⟨_, rfl, trivial⟩
  | fault_for hd t =>
    by_cases ht : t < 5
    · exact ⟨FaultPc.fault_for_body hd t, by simp [fault_step, ht], trivial⟩
    · exact ⟨FaultPc.fault_cfsr hd, by simp [fault_step, ht], trivial⟩
  | fault_for_body hd t => exact ⟨_, rfl, trivial⟩
  | fault_cfsr hd => exact ⟨_, rfl, trivial⟩
  | fault_while hd => exact ⟨FaultPc.fault_while hd, by simp [fault_step], trivial⟩
  | fault_end hd => exact absurd h id

/-- From a point before the end of `vmpu_fault`, no sequence of events leads
back to the running program. -/
theorem machine_run_in_fault (events : List MachineEvent) (pc : FaultPc) (h : pc.before_end) :
    ∃ pc2, machine_run (Machine.in_fault pc) events = Machine.in_fault pc2 ∧
      pc2.before_end := by
  induction events generalizing pc with
  | nil => exact ⟨pc, rfl, h⟩
  | cons e es ih =>
    obtain ⟨pc2, h1, h2⟩ := fault_step_before_end pc h
    rw [machine_run]
    have hs : machine_step (Machine.in_fault pc) e = Machine.in_fault pc2 := by
      rw [← h1]; rfl
    rw [hs]
    exact ih pc2 h2

/-- Every state the machine reaches from the running program is the running
program or a point before the end of `vmpu_fault`. -/
theorem machine_run_running (events : List MachineEvent) :
    machine_run Machine.running events = Machine.running ∨
      ∃ pc, machine_run Machine.running events = Machine.in_fault pc ∧ pc.before_end := by
  induction events with
  | nil => exact Or.inl rfl
  | cons e es ih =>
    rw [machine_run]
    cases e with
    | fault irq =>
      right
      exact machine_run_in_fault es _ trivial
    | svc imm => exact ih
    | other => exact ih

theorem machine_run_append (m : Machine) (xs ys : List MachineEvent) :
    machine_run m (xs ++ ys) = machine_run (machine_run m xs) ys := by
  induction xs generalizing m with
  | nil => rfl
  | cons e es ih => exact ih _

/-- Once at `while(1);` the machine stays there. -/
theorem machine_run_while (events : List MachineEvent) (h : FaultHandler) :
    machine_run (Machine.in_fault (FaultPc.fault_while h)) events
      = Machine.in_fault (FaultPc.fault_while h) := by
  induction events with
  | nil => rfl
  | cons e es ih =>
    rw [machine_run]
    have hs : machine_step (Machine.in_fault (FaultPc.fault_while h)) e
        = Machine.in_fault (FaultPc.fault_while h) := by
      simp [machine_step, fault_step]
    rw [hs, ih]

/-- C16: a fault of each of the four kinds takes the running program to the
handler installed by `vmpu_init`, whose code reaches `while(1);` of
`vmpu_fault` after 15 steps and stays there, so the abstract state is `Halted`
from the fault on; and from every state that the machine reaches, a `Halted`
state is followed by a `Halted` state whatever the event, and no trap is
processed in it. -/
theorem fault_halts_forever (before : List MachineEvent) (irq : FaultIrq)
    (after : List MachineEvent) :
    (machine_step Machine.running (MachineEvent.fault irq)).sys_state = SysState.Halted ∧
      (15 ≤ after.length →
        machine_run (machine_step Machine.running (MachineEvent.fault irq)) after
          = Machine.in_fault (FaultPc.fault_while (vmpu_init irq))) ∧
      (machine_run (machine_step Machine.running (MachineEvent.fault irq)) after).sys_state
        = SysState.Halted ∧
      ((machine_run Machine.running before).sys_state = SysState.Halted →
        ∀ e, (machine_step (machine_run Machine.running before) e).sys_state
            = SysState.Halted ∧
          ¬ trap_processed (machine_run Machine.running before) e) := by
  refine ⟨rfl, fun hlen => ?_, ?_, fun hh e => ?_⟩
  · have hsplit : after = after.take 15 ++ after.drop 15 := (List.take_append_drop 15 after).symm
    have htl : (after.take 15).length = 15 := by rw [List.length_take]; omega
    rw [hsplit, machine_run_append]
    have h15 : machine_run (machine_step Machine.running (MachineEvent.fault irq))
        (after.take 15) = Machine.in_fault (FaultPc.fault_while (vmpu_init irq)) := by
      generalize after.take 15 = l at htl
      match l, htl with
      | [_, _, _, _, _, _, _, _, _, _, _, _, _, _, _], _ => rfl
    rw [h15, machine_run_while]
  · obtain ⟨pc2, h1, _⟩ := machine_run_in_fault after
      (FaultPc.handler_dprintf (vmpu_init irq)) trivial
    have hs : machine_step Machine.running (MachineEvent.fault irq)
        = Machine.in_fault (FaultPc.handler_dprintf (vmpu_init irq)) := rfl
    rw [hs, h1]
    rfl
  · rcases machine_run_running before with hr | ⟨pc, hpc, hb⟩
    · rw [hr] at hh
      cases hh
    · rw [hpc]
      obtain ⟨pc2, h1, _⟩ := fault_step_before_end pc hb
      constructor
      · have hs : machine_step (Machine.in_fault pc) e = Machine.in_fault pc2 := by
          rw [← h1]; rfl
        rw [hs]; rfl
      · intro ht
        exact Machine.noConfusion ht.1

end Uvisor
